import Mathlib

/-!
# Colour conversion, hue peaks and colour segmentation

A shallow embedding of the algorithmic core of the webcam exercises
(`task3_webcam.cpp`, `task5_webcam.cpp`, `task6_webcam.cpp`), followed by the
proofs of its properties.

Conventions of the embedding

* A `float` or `double` value is the rational number it denotes.  Every
  arithmetic operation of the source is followed by the IEEE-754 rounding of
  its format (`fl32` for `float`, `fl64` for `double`, round to nearest, ties
  to even).  The exponent range is not modelled: every intermediate value of
  the functions below is zero or has a magnitude far inside the normal range
  of both formats, and no infinity or NaN can arise.
* A `cv::Mat` is a matrix of depth `CV_8U`: its rows are lists of bytes, a row
  holding `cols * channels` samples.  These are the only matrices the programs
  create (camera frames, conversion results, masks).
* `Option` marks undefined behaviour of the C++ source: `none` is returned
  where the source would read outside a row or convert an out-of-range
  floating value to `uchar`.  For the OpenCV functions it marks a thrown
  `cv::Exception`.
* `std::sort` is not one function but any function that meets the contract of
  the C++ standard (`StdSort`); theorems about `findDominantHues` hold for every
  such function.  `gnuStdSort` is the one of GCC (libstdc++).
-/

namespace Webcam

/-! ## Floating point -/

/-- Nearest integer of a rational, a tie going to the even neighbour. -/
def roundNearestEven (m : ℚ) : ℤ :=
  let f := ⌊m⌋
  let r := m - f
  if r < 1 / 2 then f else if 1 / 2 < r then f + 1 else if f % 2 = 0 then f else f + 1

/-- Rounding of a rational to the nearest binary floating-point number with a
significand of `p` bits (unbounded exponent), ties to even. -/
def roundSig (p : ℕ) (q : ℚ) : ℚ :=
  if q = 0 then 0
  else
    let e := Int.log 2 |q|
    let ulp : ℚ := (2 : ℚ) ^ (e - ((p : ℤ) - 1))
    (roundNearestEven (q / ulp) : ℚ) * ulp

/-- Rounding to `float` (binary32, 24-bit significand). -/
def fl32 (q : ℚ) : ℚ := roundSig 24 q

/-- Rounding to `double` (binary64, 53-bit significand). -/
def fl64 (q : ℚ) : ℚ := roundSig 53 q

/-- Truncation toward zero, the rounding of a floating to integer conversion. -/
def truncQ (x : ℚ) : ℤ := if 0 ≤ x then ⌊x⌋ else ⌈x⌉

/-- The conversion `static_cast<uchar>(x)` of a floating value: the value is
truncated toward zero; the behaviour is undefined (`none`) when the truncated
value is not representable in `uchar`. -/
def castUchar (x : ℚ) : Option ℕ :=
  let t := truncQ x
  if 0 ≤ t ∧ t ≤ 255 then some t.toNat else none

/-- The C function `fmod`: `x - n * y` with `n` the quotient `x / y` truncated
toward zero (the result is exact in floating point). -/
def fmodQ (x y : ℚ) : ℚ := x - (truncQ (x / y) : ℚ) * y

/-! ## Matrices and loops -/

/-- An 8-bit `cv::Mat`: `data` holds the rows as returned by `ptr<uchar>(y)`. -/
structure Mat where
  rows : ℕ
  cols : ℕ
  channels : ℕ
  data : List (List ℕ)
deriving DecidableEq

/-- The default-constructed matrix `Mat()`: no rows, no columns, type 0. -/
def Mat.nil : Mat := ⟨0, 0, 1, []⟩

/-- The method `Mat::empty()`: no element at all. -/
def Mat.empty (m : Mat) : Bool := m.rows == 0 || m.cols == 0

/-- The method `Mat::type()` for depth `CV_8U`: `CV_MAKETYPE(CV_8U, channels)`. -/
def Mat.type (m : Mat) : ℕ := (m.channels - 1) * 8

/-- The type code `CV_8UC3`. -/
def CV_8UC3 : ℕ := 16

/-- The type code `CV_8UC1`. -/
def CV_8UC1 : ℕ := 0

/-- The method `Mat::size()`: width and height. -/
def Mat.size (m : Mat) : ℕ × ℕ := (m.cols, m.rows)

/-- The method `Mat::total()`: the number of pixels. -/
def Mat.total (m : Mat) : ℕ := m.rows * m.cols

/-- The row pointer `ptr<uchar>(y)`. -/
def Mat.ptr (m : Mat) (y : ℕ) : Option (List ℕ) := m.data[y]?

/-- Sample of channel `c` of the pixel in row `y`, column `x`. -/
def Mat.at (m : Mat) (y x c : ℕ) : Option ℕ :=
  (m.data[y]?).bind (fun row => row[x * m.channels + c]?)

/-- A matrix whose storage agrees with its header: `rows` rows of
`cols * channels` samples, each sample a byte, at least one channel. -/
def Mat.WellFormed (m : Mat) : Prop :=
  1 ≤ m.channels ∧ m.data.length = m.rows ∧
    ∀ row ∈ m.data, row.length = m.cols * m.channels ∧ ∀ v ∈ row, v < 256

instance (m : Mat) : Decidable m.WellFormed := by
  unfold Mat.WellFormed; infer_instance

/-- A counting loop `for (i = 0; i < n; ++i)` that produces one value per
iteration; it is undefined as soon as one iteration is. -/
def forLoop {α : Type} (f : ℕ → Option α) : ℕ → Option (List α)
  | 0 => some []
  | n + 1 => (forLoop f n).bind (fun l => (f n).map (fun a => l ++ [a]))

/-- A counting loop `for (i = 0; i < n; ++i)` that updates a state. -/
def foldLoop {σ : Type} (step : ℕ → σ → Option σ) (init : σ) : ℕ → Option σ
  | 0 => some init
  | n + 1 => (foldLoop step init n).bind (step n)

/-! ## task3: manual colour conversion and comparison -/

/-- The `double` literal `0.114`. -/
def c114 : ℚ := fl64 (114 / 1000)

/-- The `double` literal `0.587`. -/
def c587 : ℚ := fl64 (587 / 1000)

/-- The `double` literal `0.299`. -/
def c299 : ℚ := fl64 (299 / 1000)

/-- The `double` expression `0.114 * B + 0.587 * G + 0.299 * R` of
`manualBGR2Gray`, evaluated left to right. -/
def graySum (b g r : ℕ) : ℚ :=
  fl64 (fl64 (fl64 (c114 * b) + fl64 (c587 * g)) + fl64 (c299 * r))

/-- Body of the inner loop of `manualBGR2Gray`: the stored gray sample. -/
def grayPixel (b g r : ℕ) : Option ℕ := castUchar (graySum b g r)

/-- Function `manualBGR2Gray` of `task3_webcam.cpp`. -/
def manualBGR2Gray (bgr : Mat) : Option Mat :=
  if bgr.empty || bgr.type != CV_8UC3 then some Mat.nil
  else
    (forLoop (fun y =>
      (bgr.ptr y).bind (fun bgr_ptr =>
        forLoop (fun x =>
          let idx := x * 3
          (bgr_ptr[idx]?).bind (fun b =>
          (bgr_ptr[idx + 1]?).bind (fun g =>
          (bgr_ptr[idx + 2]?).bind (fun r =>
            grayPixel b g r)))) bgr.cols)) bgr.rows).map
      (fun gray => ⟨bgr.rows, bgr.cols, 1, gray⟩)

/-- The `float` literal `0.0001f`. -/
def c0001 : ℚ := fl32 (1 / 10000)

/-- The hue computation of `manualBGR2HSV` (the variable `h` just before it is
stored) from the normalised channels `b`, `g`, `r`. -/
def hueFloat (b g r : ℚ) : ℚ :=
  let max_val := max r (max g b)
  let min_val := min r (min g b)
  let delta := fl32 (max_val - min_val)
  let h0 : ℚ :=
    if delta > c0001 then
      let h1 : ℚ :=
        if max_val = r then fl32 (fl64 (60 * fmodQ (fl32 (fl32 (g - b) / delta)) 6))
        else if max_val = g then fl32 (60 * fl32 (fl32 (fl32 (b - r) / delta) + 2))
        else fl32 (60 * fl32 (fl32 (fl32 (r - g) / delta) + 4))
      if h1 < 0 then fl32 (h1 + 360) else h1
    else 0
  let h2 := fl32 (h0 / 2)
  let h3 := if h2 > 179 then 179 else h2
  if h3 < 0 then 0 else h3

/-- The saturation computation of `manualBGR2HSV` (the variable `s` just before
it is stored). -/
def satFloat (b g r : ℚ) : ℚ :=
  let max_val := max r (max g b)
  let min_val := min r (min g b)
  let delta := fl32 (max_val - min_val)
  let s0 : ℚ := if max_val > c0001 then fl32 (fl32 (delta / max_val) * 255) else 0
  if s0 > 255 then 255 else s0

/-- The value computation of `manualBGR2HSV` (the variable `v` just before it
is stored). -/
def valFloat (b g r : ℚ) : ℚ :=
  let max_val := max r (max g b)
  let v0 := fl32 (max_val * 255)
  if v0 > 255 then 255 else v0

/-- Body of the inner loop of `manualBGR2HSV`: the three stored samples. -/
def hsvPixel (B G R : ℕ) : Option (ℕ × ℕ × ℕ) :=
  let b := fl32 ((B : ℚ) / 255)
  let g := fl32 ((G : ℚ) / 255)
  let r := fl32 ((R : ℚ) / 255)
  (castUchar (hueFloat b g r)).bind (fun hh =>
    (castUchar (satFloat b g r)).bind (fun ss =>
      (castUchar (valFloat b g r)).map (fun vv => (hh, ss, vv))))

/-- Function `manualBGR2HSV` of `task3_webcam.cpp`. -/
def manualBGR2HSV (bgr : Mat) : Option Mat :=
  if bgr.empty || bgr.type != CV_8UC3 then some Mat.nil
  else
    (forLoop (fun y =>
      (bgr.ptr y).bind (fun bgr_ptr =>
        (forLoop (fun x =>
          let idx := x * 3
          (bgr_ptr[idx]?).bind (fun b =>
          (bgr_ptr[idx + 1]?).bind (fun g =>
          (bgr_ptr[idx + 2]?).bind (fun r =>
            hsvPixel b g r)))) bgr.cols).map
          (fun px => (px.map (fun p => [p.1, p.2.1, p.2.2])).flatten))) bgr.rows).map
      (fun hsv => ⟨bgr.rows, bgr.cols, 3, hsv⟩)

/-- One iteration of the inner loop of `compareMSE` on the accumulators
`(error, total)`. -/
def mseStep (p1 p2 : List ℕ) (x : ℕ) (acc : ℚ × ℕ) : Option (ℚ × ℕ) :=
  (p1[x]?).bind (fun (a : ℕ) => (p2[x]?).map (fun (b : ℕ) =>
    let diff : ℚ := (a : ℚ) - (b : ℚ)
    (fl64 (acc.1 + fl64 (diff * diff)), acc.2 + 1)))

/-- Function `compareMSE` of `task3_webcam.cpp`; the sentinel is `-1`. -/
def compareMSE (img1 img2 : Mat) : Option ℚ :=
  if img1.empty || img2.empty then some (-1)
  else if img1.size != img2.size || img1.type != img2.type then some (-1)
  else
    (foldLoop (fun y acc =>
      (img1.ptr y).bind (fun p1 => (img2.ptr y).bind (fun p2 =>
        foldLoop (mseStep p1 p2) acc (img1.cols * img1.channels)))) (0, 0) img1.rows).map
      (fun acc => if acc.2 > 0 then fl64 (acc.1 / fl64 (acc.2 : ℚ)) else -1)

/-- Following the spec's words: the weighted sum `0.114·B + 0.587·G + 0.299·R`
as an exact rational. -/
def lumaExact (b g r : ℕ) : ℚ := (114 * (b : ℚ) + 587 * (g : ℚ) + 299 * (r : ℚ)) / 1000

/-- Following the spec's words: `round(0.114·B + 0.587·G + 0.299·R)`, the
weighted sum rounded to the nearest integer. -/
def lumaRounded (b g r : ℕ) : ℤ := round (lumaExact b g r)

/-- Squared difference of two samples, as a natural number. -/
def sqDiff (a b : ℕ) : ℕ := (a - b + (b - a)) ^ 2

/-- Sum of the squared differences of the first `n` samples of two rows. -/
def rowSumSq (p1 p2 : List ℕ) (n : ℕ) : ℕ :=
  Finset.sum (Finset.range n) (fun i => sqDiff (p1.getD i 0) (p2.getD i 0))

/-- Following the spec's words: the sum of the squared per-sample differences of
two frames over all rows, columns and channels. -/
def sumSqDiff (a b : Mat) : ℚ :=
  Finset.sum (Finset.range a.rows) (fun y =>
    Finset.sum (Finset.range a.cols) (fun x =>
      Finset.sum (Finset.range a.channels) (fun c =>
        (((a.at y x c).getD 0 : ℚ) - ((b.at y x c).getD 0 : ℚ)) ^ 2)))

/-- Sum of the squared differences of the samples of the first `n` rows of two
frames, as a natural number. -/
def frameSumSq (a b : Mat) (n : ℕ) : ℕ :=
  Finset.sum (Finset.range n) (fun y =>
    rowSumSq (a.data.getD y []) (b.data.getD y []) (a.cols * a.channels))

/-! ## task5: dominant hues -/

/-- A hue peak `pair<int, float>`: bucket index and height. -/
abbrev HuePeak := ℕ × ℚ

/-- The comparator passed to `sort` in `findDominantHues`:
`a.second > b.second`. -/
def peakGreater (a b : HuePeak) : Bool := decide (a.2 > b.2)

/-- An implementation of `std::sort` for the comparator `comp`.  The C++
standard guarantees that the result is a permutation of the input and is sorted
with respect to `comp` (no element compares before one that precedes it); the
relative order of equivalent elements is not specified. -/
structure StdSort (α : Type) (comp : α → α → Bool) where
  run : List α → List α
  perm : ∀ l, (run l).Perm l
  sorted : ∀ l, (run l).Pairwise (fun a b => comp b a = false)

/-- The peak test of `findDominantHues` for bucket `i`:
`curr > prev && curr > next && curr > 15`. -/
def isPeak (hist : List ℚ) (i : ℕ) : Prop :=
  hist.getD i 0 > hist.getD (i - 1) 0 ∧ hist.getD i 0 > hist.getD (i + 1) 0 ∧
    hist.getD i 0 > 15

instance (hist : List ℚ) (i : ℕ) : Decidable (isPeak hist i) := by
  unfold isPeak; infer_instance

/-- Following the spec's words: the number of buckets `i` with 1 ≤ i ≤ 178 whose
count strictly exceeds both neighbours and the threshold 15. -/
def peakCount (hist : List ℚ) : ℕ :=
  ((Finset.range 180).filter (fun i => 1 ≤ i ∧ i ≤ 178 ∧ isPeak hist i)).card

/-- The scanning loop of `findDominantHues`: the vector `peaks` after the
iterations `i = 1, …, n`. -/
def peakLoop (hist : List ℚ) : ℕ → List HuePeak
  | 0 => []
  | n + 1 =>
    if isPeak hist (n + 1) then peakLoop hist n ++ [(n + 1, hist.getD (n + 1) 0)]
    else peakLoop hist n

/-- Function `findDominantHues` of `task5_webcam.cpp`.  The histogram is the
list of its `hist.rows` buckets; `top_n` is converted to `size_t` for the
comparison with `peaks.size()` and for `resize`. -/
def findDominantHues (S : StdSort HuePeak peakGreater) (hist : List ℚ) (top_n : ℤ) :
    List HuePeak :=
  let peaks := S.run (peakLoop hist (hist.length - 2))
  if (peaks.length : ℤ) > top_n % 2 ^ 64 then peaks.take (top_n % 2 ^ 64).toNat else peaks

/-- The order `a.second >= b.second` on peaks. -/
def peakGE (a b : HuePeak) : Prop := b.2 ≤ a.2

instance : DecidableRel peakGE := fun a b => by unfold peakGE; infer_instance

instance : IsTotal HuePeak peakGE := ⟨fun a b => le_total b.2 a.2⟩

instance : IsTrans HuePeak peakGE := ⟨fun _ _ _ h1 h2 => le_trans h2 h1⟩

/-- A conforming `std::sort` that keeps equal peaks in their input order
(insertion sort, as used by common library implementations on short ranges). -/
def stableStdSort : StdSort HuePeak peakGreater where
  run := List.insertionSort peakGE
  perm := List.perm_insertionSort peakGE
  sorted := fun l => by
    have h := List.sorted_insertionSort peakGE l
    refine List.Pairwise.imp ?_ h
    intro a b hab
    simp only [peakGreater, decide_eq_false_iff_not, not_lt]
    exact hab

/-- A 180-bucket histogram that is zero except for the listed buckets. -/
def histOf (spikes : List (ℕ × ℚ)) : List ℚ :=
  (List.range 180).map (fun i => ((spikes.find? (fun s => s.1 == i)).map Prod.snd).getD 0)

/-! ## task5: `std::sort` as implemented by GCC

The function templates of `bits/stl_algo.h` (libstdc++), on an array held as a
list and iterators held as positions.  `none` marks an access outside the
array and the fall-back to heap sort.  The loops are given as many steps as the
array has elements, plus one: a scan leaves the array before it runs out of
steps. -/

/-- The comparison `__comp(i, j)` of the elements at the positions `i` and
`j`. -/
def compAt {α : Type} (comp : α → α → Bool) (v : List α) (i j : ℕ) : Option Bool :=
  (v[i]?).bind (fun a => (v[j]?).map (fun b => comp a b))

/-- The function `std::iter_swap`: exchange the elements at two positions. -/
def iter_swap {α : Type} (v : List α) (i j : ℕ) : Option (List α) :=
  (v[i]?).bind (fun a => (v[j]?).map (fun b => (v.set i b).set j a))

/-- The function `__move_median_to_first`: swap the median of the elements at
`a`, `b`, `c` to the position `result`. -/
def move_median_to_first {α : Type} (comp : α → α → Bool) (v : List α)
    (result a b c : ℕ) : Option (List α) :=
  (compAt comp v a b).bind (fun ab =>
    if ab then
      (compAt comp v b c).bind (fun bc =>
        if bc then iter_swap v result b
        else (compAt comp v a c).bind (fun ac =>
          if ac then iter_swap v result c else iter_swap v result a))
    else
      (compAt comp v a c).bind (fun ac =>
        if ac then iter_swap v result a
        else (compAt comp v b c).bind (fun bc =>
          if bc then iter_swap v result c else iter_swap v result b)))

/-- The loop `while (__comp(__first, __pivot)) ++__first;` of
`__unguarded_partition`, at most `n` steps: the final `__first`. -/
def scanUp {α : Type} (comp : α → α → Bool) (v : List α) (pivot : ℕ) : ℕ → ℕ → Option ℕ
  | 0, _ => none
  | n + 1, first =>
    (compAt comp v first pivot).bind (fun c =>
      if c then scanUp comp v pivot n (first + 1) else some first)

/-- The loop `while (__comp(__pivot, __last)) --__last;` of
`__unguarded_partition`, at most `n` steps: the final `__last`. -/
def scanDown {α : Type} (comp : α → α → Bool) (v : List α) (pivot : ℕ) : ℕ → ℕ → Option ℕ
  | 0, _ => none
  | n + 1, last =>
    (compAt comp v pivot last).bind (fun c =>
      if c then (if last = 0 then none else scanDown comp v pivot n (last - 1))
      else some last)

/-- The function `__unguarded_partition`, at most `n` rounds of its outer loop:
the array and the returned position. -/
def unguarded_partition {α : Type} (comp : α → α → Bool) (pivot : ℕ) :
    ℕ → List α → ℕ → ℕ → Option (List α × ℕ)
  | 0, _, _, _ => none
  | n + 1, v, first, last =>
    (scanUp comp v pivot (v.length + 1) first).bind (fun first =>
      if last = 0 then none
      else
        (scanDown comp v pivot (v.length + 1) (last - 1)).bind (fun last =>
          if ¬ first < last then some (v, first)
          else
            (iter_swap v first last).bind (fun v =>
              unguarded_partition comp pivot n v (first + 1) last)))

/-- The function `__unguarded_partition_pivot`. -/
def unguarded_partition_pivot {α : Type} (comp : α → α → Bool) (v : List α)
    (first last : ℕ) : Option (List α × ℕ) :=
  let mid := first + (last - first) / 2
  (move_median_to_first comp v first (first + 1) mid (last - 1)).bind (fun v =>
    unguarded_partition comp first (v.length + 1) v (first + 1) last)

/-- The function `__introsort_loop`: while the range holds more than 16
elements it is partitioned, the upper part is handled by the recursive call and
the lower part by the next round of the loop.  An exhausted `depth_limit` makes
the library fall back to heap sort, which is not embedded: `none`. -/
def introsort_loop {α : Type} (comp : α → α → Bool) : ℕ → List α → ℕ → ℕ → Option (List α)
  | 0, v, first, last => if last - first > 16 then none else some v
  | depth_limit + 1, v, first, last =>
    if last - first > 16 then
      (unguarded_partition_pivot comp v first last).bind (fun p =>
        (introsort_loop comp depth_limit p.1 p.2 last).bind (fun v =>
          introsort_loop comp depth_limit v first p.2))
    else some v

/-- The loop of `__unguarded_linear_insert` on the elements before the
inserted one, nearest first: `val` moves past every element it is to precede. -/
def linearInsert {α : Type} (comp : α → α → Bool) (val : α) : List α → List α
  | [] => [val]
  | next :: before =>
    if comp val next then next :: linearInsert comp val before else val :: next :: before

/-- The function `__unguarded_linear_insert`: the sorted elements `before` with
`val` inserted.  The scan ends at the start of the array at the latest. -/
def unguarded_linear_insert {α : Type} (comp : α → α → Bool) (before : List α) (val : α) :
    List α :=
  (linearInsert comp val before.reverse).reverse

/-- One round of the loop of `__insertion_sort`: an element that is to precede
the first one is moved to the front, any other is inserted by
`__unguarded_linear_insert`. -/
def insertionStep {α : Type} (comp : α → α → Bool) (before : List α) (val : α) : List α :=
  match before with
  | [] => [val]
  | first :: _ =>
    if comp val first then val :: before else unguarded_linear_insert comp before val

/-- The function `__insertion_sort`. -/
def insertion_sort {α : Type} (comp : α → α → Bool) (v : List α) : List α :=
  v.foldl (insertionStep comp) []

/-- The function `__unguarded_insertion_sort`: the elements of `v` are inserted
in turn into the sorted elements `before` them. -/
def unguarded_insertion_sort {α : Type} (comp : α → α → Bool) (before v : List α) : List α :=
  v.foldl (unguarded_linear_insert comp) before

/-- The function `__final_insertion_sort`. -/
def final_insertion_sort {α : Type} (comp : α → α → Bool) (v : List α) : List α :=
  if v.length > 16 then
    unguarded_insertion_sort comp (insertion_sort comp (v.take 16)) (v.drop 16)
  else insertion_sort comp v

/-- The function `std::__lg`: the binary logarithm, rounded down, computed for
`n` below 2 ^ `k`. -/
def lg : ℕ → ℕ → ℕ
  | 0, _ => 0
  | k + 1, n => if n < 2 then 0 else lg k (n / 2) + 1

/-- The function `std::sort` (`std::__sort`) of libstdc++. -/
def std_sort {α : Type} (comp : α → α → Bool) (v : List α) : Option (List α) :=
  if v.length = 0 then some v
  else
    (introsort_loop comp (lg 64 v.length * 2) v 0 v.length).map (final_insertion_sort comp)

/-- The `std::sort` of GCC for the peaks of `findDominantHues`: the result of
`std_sort`, and where the embedding of the library is undefined (the fall-back
to heap sort) the result of an arbitrary conforming sort `heap`. -/
def gnuStdSort (heap : StdSort HuePeak peakGreater) : StdSort HuePeak peakGreater where
  run := fun l => (std_sort peakGreater l).getD (heap.run l)
  perm := fun l => by
    have hswapG : ∀ (β : Type) [DecidableEq β] (v : List β) (i j : ℕ) (hi : i < v.length)
        (hj : j < v.length), ((v.set i v[j]).set j v[i]).Perm v := by
      intro β _ v i j hil hjl
      rw [List.perm_iff_count]
      intro x
      have hjl2 : j < (v.set i v[j]).length := by rw [List.length_set]; exact hjl
      have hget : (v.set i v[j])[j] = v[j] := by
        rw [List.getElem_set]
        split_ifs <;> rfl
      rw [List.count_set v[i] x (v.set i v[j]) j hjl2, List.count_set v[j] x v i hil, hget]
      simp only [beq_iff_eq]
      by_cases hax : v[i] = x
      · have hpos : 1 ≤ List.count x v := by
          rw [← hax]
          exact List.count_pos_iff.mpr (List.getElem_mem hil)
        by_cases hbx : v[j] = x
        · simp only [if_pos hax, if_pos hbx]; omega
        · simp only [if_pos hax, if_neg hbx]; omega
      · by_cases hbx : v[j] = x
        · simp only [if_neg hax, if_pos hbx]; omega
        · simp only [if_neg hax, if_neg hbx]; omega
    have hswap : ∀ (v w : List HuePeak) (i j : ℕ), iter_swap v i j = some w → w.Perm v := by
      intro v w i j h
      unfold iter_swap at h
      cases hi : v[i]? with
      | none => rw [hi] at h; exact absurd h (by simp)
      | some a =>
        cases hj : v[j]? with
        | none => rw [hi, hj] at h; exact absurd h (by simp)
        | some b =>
          rw [hi, hj] at h
          simp only [Option.some_bind, Option.map_some', Option.some.injEq] at h
          subst h
          obtain ⟨hil, hia⟩ := List.getElem?_eq_some_iff.mp hi
          obtain ⟨hjl, hjb⟩ := List.getElem?_eq_some_iff.mp hj
          rw [← hia, ← hjb]
          exact hswapG HuePeak v i j hil hjl
    have hmed : ∀ (v w : List HuePeak) (r a b c : ℕ),
        move_median_to_first peakGreater v r a b c = some w → w.Perm v := by
      intro v w r a b c h
      unfold move_median_to_first at h
      cases hab : compAt peakGreater v a b with
      | none => rw [hab] at h; exact absurd h (by simp)
      | some ab =>
        rw [hab, Option.some_bind] at h
        cases hbc : compAt peakGreater v b c with
        | none =>
          rw [hbc] at h
          cases hac : compAt peakGreater v a c with
          | none => rw [hac] at h; cases ab <;> simp at h
          | some ac =>
            rw [hac] at h
            cases ab <;> cases ac <;> simp at h
            all_goals exact hswap _ _ _ _ h
        | some bc =>
          rw [hbc] at h
          cases hac : compAt peakGreater v a c with
          | none =>
            rw [hac] at h
            cases ab <;> cases bc <;> simp at h
            all_goals exact hswap _ _ _ _ h
          | some ac =>
            rw [hac] at h
            cases ab <;> cases bc <;> cases ac <;> simp at h
            all_goals exact hswap _ _ _ _ h
    have hpart : ∀ (pivot n : ℕ) (v : List HuePeak) (first last : ℕ) (r : List HuePeak × ℕ),
        unguarded_partition peakGreater pivot n v first last = some r → r.1.Perm v := by
      intro pivot n
      induction n with
      | zero =>
        intro v first last r h
        exact absurd h (by simp [unguarded_partition])
      | succ n ih =>
        intro v first last r h
        unfold unguarded_partition at h
        cases hu : scanUp peakGreater v pivot (v.length + 1) first with
        | none => rw [hu] at h; exact absurd h (by simp)
        | some f =>
          rw [hu, Option.some_bind] at h
          by_cases hl : last = 0
          · rw [if_pos hl] at h; exact absurd h (by simp)
          · rw [if_neg hl] at h
            cases hd : scanDown peakGreater v pivot (v.length + 1) (last - 1) with
            | none => rw [hd] at h; exact absurd h (by simp)
            | some l2 =>
              rw [hd, Option.some_bind] at h
              by_cases hfl : ¬ f < l2
              · rw [if_pos hfl] at h
                rw [← Option.some.inj h]
              · rw [if_neg hfl] at h
                cases hs : iter_swap v f l2 with
                | none => rw [hs] at h; exact absurd h (by simp)
                | some w =>
                  rw [hs, Option.some_bind] at h
                  exact (ih w (f + 1) l2 r h).trans (hswap _ _ _ _ hs)
    have hpiv : ∀ (v : List HuePeak) (first last : ℕ) (r : List HuePeak × ℕ),
        unguarded_partition_pivot peakGreater v first last = some r → r.1.Perm v := by
      intro v first last r h
      unfold unguarded_partition_pivot at h
      simp only at h
      cases hm : move_median_to_first peakGreater v first (first + 1)
          (first + (last - first) / 2) (last - 1) with
      | none => rw [hm] at h; exact absurd h (by simp)
      | some w =>
        rw [hm, Option.some_bind] at h
        exact (hpart _ _ _ _ _ _ h).trans (hmed _ _ _ _ _ _ hm)
    have hloop : ∀ (d : ℕ) (v : List HuePeak) (first last : ℕ) (r : List HuePeak),
        introsort_loop peakGreater d v first last = some r → r.Perm v := by
      intro d
      induction d with
      | zero =>
        intro v first last r h
        unfold introsort_loop at h
        split_ifs at h
        rw [← Option.some.inj h]
      | succ d ih =>
        intro v first last r h
        unfold introsort_loop at h
        split_ifs at h
        · cases hp : unguarded_partition_pivot peakGreater v first last with
          | none => rw [hp] at h; exact absurd h (by simp)
          | some p =>
            rw [hp, Option.some_bind] at h
            cases hq : introsort_loop peakGreater d p.1 p.2 last with
            | none => rw [hq] at h; exact absurd h (by simp)
            | some w =>
              rw [hq, Option.some_bind] at h
              exact ((ih _ _ _ _ h).trans (ih _ _ _ _ hq)).trans (hpiv _ _ _ _ hp)
        · rw [← Option.some.inj h]
    have hins : ∀ (val : HuePeak) (l : List HuePeak),
        (linearInsert peakGreater val l).Perm (val :: l) := by
      intro val l
      induction l with
      | nil => exact List.Perm.refl _
      | cons x xs ih =>
        unfold linearInsert
        split_ifs
        · exact ((List.Perm.cons x ih).trans (List.Perm.swap val x xs))
        · exact List.Perm.refl _
    have huli : ∀ (before : List HuePeak) (val : HuePeak),
        (unguarded_linear_insert peakGreater before val).Perm (before ++ [val]) := by
      intro before val
      unfold unguarded_linear_insert
      refine (List.reverse_perm _).trans ((hins val before.reverse).trans ?_)
      refine (List.Perm.cons val (List.reverse_perm before)).trans ?_
      exact (List.perm_append_singleton val before).symm
    have hstep : ∀ (before : List HuePeak) (val : HuePeak),
        (insertionStep peakGreater before val).Perm (before ++ [val]) := by
      intro before val
      unfold insertionStep
      cases before with
      | nil => exact List.Perm.refl _
      | cons f t =>
        simp only
        split_ifs
        · exact (List.perm_append_singleton val (f :: t)).symm
        · exact huli _ _
    have hfold : ∀ (step : List HuePeak → HuePeak → List HuePeak),
        (∀ b x, (step b x).Perm (b ++ [x])) →
        ∀ (v acc : List HuePeak), (v.foldl step acc).Perm (acc ++ v) := by
      intro step hs v
      induction v with
      | nil => intro acc; simp
      | cons x xs ih =>
        intro acc
        rw [List.foldl_cons]
        refine (ih (step acc x)).trans ?_
        have := (hs acc x).append_right xs
        simpa using this
    have hfinal : ∀ v : List HuePeak, (final_insertion_sort peakGreater v).Perm v := by
      intro v
      unfold final_insertion_sort unguarded_insertion_sort insertion_sort
      split_ifs
      · refine (hfold _ huli _ _).trans ?_
        refine ((hfold _ hstep (v.take 16) []).append_right (v.drop 16)).trans ?_
        simp
      · simpa using hfold _ hstep v []
    show ((std_sort peakGreater l).getD (heap.run l)).Perm l
    cases hs : std_sort peakGreater l with
    | none => simpa using heap.perm l
    | some r =>
      simp only [Option.getD_some]
      unfold std_sort at hs
      split_ifs at hs
      · rw [← Option.some.inj hs]
      · cases hq : introsort_loop peakGreater (lg 64 l.length * 2) l 0 l.length with
        | none => rw [hq] at hs; exact absurd hs (by simp)
        | some w =>
          rw [hq, Option.map_some', Option.some.injEq] at hs
          rw [← hs]
          exact (hfinal w).trans (hloop _ _ _ _ _ hq)
  sorted := fun l => by
    have hmem : ∀ (val : HuePeak) (l : List HuePeak) (y : HuePeak),
        y ∈ linearInsert peakGreater val l → y = val ∨ y ∈ l := by
      intro val l
      induction l with
      | nil =>
        intro y hy
        exact Or.inl (List.mem_singleton.mp hy)
      | cons x xs ih =>
        intro y hy
        unfold linearInsert at hy
        split_ifs at hy
        · rcases List.mem_cons.mp hy with h | h
          · exact Or.inr (h ▸ List.mem_cons_self x xs)
          · rcases ih y h with h2 | h2
            · exact Or.inl h2
            · exact Or.inr (List.mem_cons_of_mem x h2)
        · rcases List.mem_cons.mp hy with h | h
          · exact Or.inl h
          · exact Or.inr h
    have hins : ∀ (val : HuePeak) (l : List HuePeak), l.Pairwise (fun a b => a.2 ≤ b.2) →
        (linearInsert peakGreater val l).Pairwise (fun a b => a.2 ≤ b.2) := by
      intro val l
      induction l with
      | nil =>
        intro _
        exact List.pairwise_singleton _ _
      | cons x xs ih =>
        intro hl
        obtain ⟨hx, hxs⟩ := List.pairwise_cons.mp hl
        unfold linearInsert
        by_cases hc : peakGreater val x = true
        · rw [if_pos hc]
          have hlt : x.2 < val.2 := by simpa [peakGreater] using hc
          refine List.pairwise_cons.mpr ⟨?_, ih hxs⟩
          intro y hy
          rcases hmem val xs y hy with h | h
          · rw [h]; exact hlt.le
          · exact hx y h
        · rw [if_neg hc]
          have hle : val.2 ≤ x.2 := by simpa [peakGreater] using hc
          refine List.pairwise_cons.mpr ⟨?_, hl⟩
          intro y hy
          rcases List.mem_cons.mp hy with h | h
          · rw [h]; exact hle
          · exact le_trans hle (hx y h)
    have huli : ∀ (before : List HuePeak) (val : HuePeak),
        before.Pairwise (fun a b => b.2 ≤ a.2) →
        (unguarded_linear_insert peakGreater before val).Pairwise (fun a b => b.2 ≤ a.2) := by
      intro before val hb
      unfold unguarded_linear_insert
      rw [List.pairwise_reverse]
      exact hins val before.reverse (List.pairwise_reverse.mpr hb)
    have hstep : ∀ (before : List HuePeak) (val : HuePeak),
        before.Pairwise (fun a b => b.2 ≤ a.2) →
        (insertionStep peakGreater before val).Pairwise (fun a b => b.2 ≤ a.2) := by
      intro before val hb
      unfold insertionStep
      cases before with
      | nil => exact List.pairwise_singleton _ _
      | cons f t =>
        simp only
        by_cases hc : peakGreater val f = true
        · rw [if_pos hc]
          have hlt : f.2 < val.2 := by simpa [peakGreater] using hc
          refine List.pairwise_cons.mpr ⟨?_, hb⟩
          intro y hy
          rcases List.mem_cons.mp hy with h | h
          · rw [h]; exact hlt.le
          · exact le_trans ((List.pairwise_cons.mp hb).1 y h) hlt.le
        · rw [if_neg hc]
          exact huli _ _ hb
    have hfold : ∀ (step : List HuePeak → HuePeak → List HuePeak),
        (∀ b x, b.Pairwise (fun a b => b.2 ≤ a.2) →
          (step b x).Pairwise (fun a b => b.2 ≤ a.2)) →
        ∀ (v acc : List HuePeak), acc.Pairwise (fun a b => b.2 ≤ a.2) →
          (v.foldl step acc).Pairwise (fun a b => b.2 ≤ a.2) := by
      intro step hs v
      induction v with
      | nil => intro acc hacc; exact hacc
      | cons x xs ih =>
        intro acc hacc
        rw [List.foldl_cons]
        exact ih (step acc x) (hs acc x hacc)
    have hfinal : ∀ v : List HuePeak,
        (final_insertion_sort peakGreater v).Pairwise (fun a b => b.2 ≤ a.2) := by
      intro v
      unfold final_insertion_sort unguarded_insertion_sort insertion_sort
      split_ifs
      · exact hfold _ huli _ _ (hfold _ hstep _ _ List.Pairwise.nil)
      · exact hfold _ hstep _ _ List.Pairwise.nil
    show ((std_sort peakGreater l).getD (heap.run l)).Pairwise
      (fun a b => peakGreater b a = false)
    cases hs : std_sort peakGreater l with
    | none => simpa using heap.sorted l
    | some r =>
      simp only [Option.getD_some]
      unfold std_sort at hs
      split_ifs at hs with h0
      · rw [← Option.some.inj hs, List.length_eq_zero.mp h0]
        exact List.Pairwise.nil
      · cases hq : introsort_loop peakGreater (lg 64 l.length * 2) l 0 l.length with
        | none => rw [hq] at hs; exact absurd hs (by simp)
        | some w =>
          rw [hq, Option.map_some', Option.some.injEq] at hs
          rw [← hs]
          refine (hfinal w).imp ?_
          intro a b hab
          simpa [peakGreater] using hab

/-! ## task6: colour segmentation

The OpenCV functions called by `ColorSegmenter` are modelled from their
documented behaviour on 8-bit matrices.  For them `none` stands for a thrown
`cv::Exception`. -/

/-- A `cv::Scalar` with integral components (all configured bounds and colours
are integers). -/
structure Scalar where
  v0 : ℤ
  v1 : ℤ
  v2 : ℤ
  v3 : ℤ
deriving DecidableEq

/-- Component `i` of a scalar. -/
def Scalar.get (s : Scalar) : ℕ → ℤ
  | 0 => s.v0
  | 1 => s.v1
  | 2 => s.v2
  | _ => s.v3

/-- The struct `ColorConfig`. -/
structure ColorConfig where
  name : String
  lower_hsv : Scalar
  upper_hsv : Scalar
  bgr_color : Scalar
deriving DecidableEq

/-- The class `ColorSegmenter`: its only state is the table `colors`. -/
structure ColorSegmenter where
  colors : List ColorConfig

/-- The constructor `ColorSegmenter()`: Blue, Red (low hues), Red2 (high hues)
and Green. -/
def ColorSegmenter.new : ColorSegmenter :=
  ⟨[⟨"Blue", ⟨100, 50, 50, 0⟩, ⟨140, 255, 255, 0⟩, ⟨255, 0, 0, 0⟩⟩,
    ⟨"Red", ⟨0, 50, 50, 0⟩, ⟨10, 255, 255, 0⟩, ⟨0, 0, 255, 0⟩⟩,
    ⟨"Red2", ⟨170, 50, 50, 0⟩, ⟨180, 255, 255, 0⟩, ⟨0, 0, 255, 0⟩⟩,
    ⟨"Green", ⟨35, 50, 50, 0⟩, ⟨85, 255, 255, 0⟩, ⟨0, 255, 0, 0⟩⟩]⟩

/-- Sample of channel `c` at row `y`, column `x`, 0 when outside the storage. -/
def Mat.sample (m : Mat) (y x c : ℕ) : ℕ := (m.at y x c).getD 0

/-- A matrix whose every sample is 0 or 255, as in a mask. -/
def Mat.Binary (m : Mat) : Prop := ∀ y x c, m.sample y x c = 0 ∨ m.sample y x c = 255

/-- The range test of `cv::inRange` for one pixel: every channel lies between
the bounds, inclusive. -/
def pixelInRange (src : Mat) (lowerb upperb : Scalar) (y x : ℕ) : Bool :=
  (List.range src.channels).all (fun c =>
    decide (lowerb.get c ≤ (src.sample y x c : ℤ) ∧ (src.sample y x c : ℤ) ≤ upperb.get c))

/-- The function `cv::inRange` with scalar bounds: a single-channel mask of the
size of `src`, 255 where the pixel passes the range test and 0 elsewhere.  An
empty source or one of more than four channels is rejected with an exception. -/
def inRange (src : Mat) (lowerb upperb : Scalar) : Option Mat :=
  if src.empty || decide (src.channels > 4) then none
  else some ⟨src.rows, src.cols, 1,
    (List.range src.rows).map (fun y =>
      (List.range src.cols).map (fun x =>
        if pixelInRange src lowerb upperb y x then 255 else 0))⟩

/-- The 5×5 kernel returned by `getStructuringElement(MORPH_ELLIPSE, Size(5, 5))`. -/
def ellipse5 : List (List ℕ) :=
  [[0, 0, 1, 0, 0], [1, 1, 1, 1, 1], [1, 1, 1, 1, 1], [1, 1, 1, 1, 1], [0, 0, 1, 0, 0]]

/-- Offsets `(dy, dx)` of the non-zero cells of a kernel from its centre, the
default anchor. -/
def kernelOffsets (kernel : List (List ℕ)) : List (ℤ × ℤ) :=
  (List.range kernel.length).flatMap (fun i =>
    (List.range (kernel.getD i []).length).filterMap (fun j =>
      if (kernel.getD i []).getD j 0 ≠ 0 then
        some ((i : ℤ) - (kernel.length / 2 : ℕ), (j : ℤ) - ((kernel.getD i []).length / 2 : ℕ))
      else none))

/-- The samples of channel `c` that a kernel placed at `(y, x)` covers inside the
matrix.  With the default border value of the morphological operations the
cells outside the matrix never influence the result. -/
def neighbours (src : Mat) (offs : List (ℤ × ℤ)) (y x c : ℕ) : List ℕ :=
  offs.filterMap (fun d =>
    let yy := (y : ℤ) + d.1
    let xx := (x : ℤ) + d.2
    if 0 ≤ yy ∧ yy < src.rows ∧ 0 ≤ xx ∧ xx < src.cols then
      some (src.sample yy.toNat xx.toNat c)
    else none)

/-- A matrix of the shape of `src` whose sample `(y, x, c)` is `f y x c`. -/
def Mat.tabulate (src : Mat) (f : ℕ → ℕ → ℕ → ℕ) : Mat :=
  ⟨src.rows, src.cols, src.channels,
    (List.range src.rows).map (fun y =>
      (List.range (src.cols * src.channels)).map (fun i =>
        f y (i / src.channels) (i % src.channels)))⟩

/-- The function `cv::dilate`: the maximum over the kernel. -/
def dilate (src : Mat) (kernel : List (List ℕ)) : Mat :=
  src.tabulate (fun y x c => (neighbours src (kernelOffsets kernel) y x c).foldl max 0)

/-- The function `cv::erode`: the minimum over the kernel. -/
def erode (src : Mat) (kernel : List (List ℕ)) : Mat :=
  src.tabulate (fun y x c => (neighbours src (kernelOffsets kernel) y x c).foldl min 255)

/-- The operations of `cv::morphologyEx` used by the program. -/
inductive MorphOp
  | MORPH_CLOSE
  | MORPH_OPEN
deriving DecidableEq

/-- The function `cv::morphologyEx`: closing is dilation then erosion, opening
is erosion then dilation. -/
def morphologyEx (src : Mat) (op : MorphOp) (kernel : List (List ℕ)) : Mat :=
  match op with
  | MorphOp.MORPH_CLOSE => erode (dilate src kernel) kernel
  | MorphOp.MORPH_OPEN => dilate (erode src kernel) kernel

/-- Method `ColorSegmenter::segmentByColor` of `task6_webcam.cpp`. -/
def segmentByColor (hsv : Mat) (cfg : ColorConfig) : Mat :=
  if hsv.empty then Mat.nil
  else
    match inRange hsv cfg.lower_hsv cfg.upper_hsv with
    | none => Mat.nil
    | some mask =>
      if !mask.empty then
        morphologyEx (morphologyEx mask MorphOp.MORPH_CLOSE ellipse5) MorphOp.MORPH_OPEN ellipse5
      else mask

/-- The operator `mask1 | mask2` (`cv::bitwise_or`): the bitwise or of the
samples; matrices of different size or type are rejected with an exception. -/
def bitwiseOr (m1 m2 : Mat) : Option Mat :=
  if m1.size != m2.size || m1.type != m2.type then none
  else some ⟨m1.rows, m1.cols, m1.channels,
    List.zipWith (fun r1 r2 => List.zipWith (fun a b => a ||| b) r1 r2) m1.data m2.data⟩

/-- Method `ColorSegmenter::segmentRed` of `task6_webcam.cpp`, its two calls of
`segmentByColor` being calls of `segment`; `none` when `colors` has no entry 1
or 2 (undefined behaviour) or the union throws.  With `segment` a parameter the
method is defined for every outcome of the two calls, also for a failure of one
of them alone (the catch-all of `segmentByColor` turns every exception into an
empty mask). -/
def ColorSegmenter.segmentRedWith (s : ColorSegmenter) (segment : Mat → ColorConfig → Mat)
    (hsv : Mat) : Option Mat :=
  if hsv.empty then some Mat.nil
  else
    (s.colors[1]?).bind (fun c1 =>
    (s.colors[2]?).bind (fun c2 =>
      let mask1 := segment hsv c1
      let mask2 := segment hsv c2
      if mask1.empty then some mask2
      else if mask2.empty then some mask1
      else bitwiseOr mask1 mask2))

/-- Method `ColorSegmenter::segmentRed` of `task6_webcam.cpp`. -/
def ColorSegmenter.segmentRed (s : ColorSegmenter) (hsv : Mat) : Option Mat :=
  s.segmentRedWith segmentByColor hsv

/-- A `cv::Point`: `(x, y)`. -/
abbrev Point := ℤ × ℤ

/-- A contour: the sequence of its vertices. -/
abbrev Contour := List Point

/-- The function `cv::contourArea`: the area enclosed by the polygon (Green
formula), exact for image coordinates. -/
def contourArea (cnt : Contour) : ℚ :=
  match cnt.getLast? with
  | none => 0
  | some last =>
    |(List.zipWith (fun (prev p : Point) => ((prev.1 * p.2 - prev.2 * p.1 : ℤ) : ℚ))
        (last :: cnt) cnt).sum| / 2

/-- The corner `(box.x, box.y)` of `cv::boundingRect`: the least coordinates of
the contour (the empty rectangle for an empty contour). -/
def boundingRectOrigin (cnt : Contour) : Point :=
  match cnt with
  | [] => (0, 0)
  | p :: ps => (ps.foldl (fun m q => min m q.1) p.1, ps.foldl (fun m q => min m q.2) p.2)

/-- The drawing calls of `drawResult`. -/
inductive DrawOp
  | drawContours (contours : List Contour) (contourIdx : ℤ) (color : Scalar) (thickness : ℤ)
  | putText (text : String) (org : Point) (color : Scalar) (thickness : ℤ)
deriving DecidableEq

/-- The contours outlined by a drawing call: `cv::drawContours` outlines contour
`contourIdx`, and all the contours when `contourIdx` is negative. -/
def DrawOp.outlined : DrawOp → List Contour
  | DrawOp.drawContours contours contourIdx _ _ =>
    if contourIdx < 0 then contours else (contours[contourIdx.toNat]?).toList
  | DrawOp.putText _ _ _ _ => []

/-- The anchor of the label written by a drawing call. -/
def DrawOp.label : DrawOp → List Point
  | DrawOp.drawContours _ _ _ _ => []
  | DrawOp.putText _ org _ _ => [org]

/-- The image returned by `drawResult`: a copy of a frame and the drawing calls
applied to it, in order. -/
structure Drawing where
  base : Mat
  ops : List DrawOp
deriving DecidableEq

/-- The body of the loop over the contours in `drawResult`. -/
def drawStep (contours : List Contour) (color : Scalar) (ops : List DrawOp) (cnt : Contour) :
    List DrawOp :=
  if contourArea cnt > 500 then
    ops ++ [DrawOp.drawContours contours (-1) color 2,
      DrawOp.putText "Object" ((boundingRectOrigin cnt).1, (boundingRectOrigin cnt).2 - 10)
        color 2]
  else ops

/-- Method `ColorSegmenter::drawResult` of `task6_webcam.cpp`.  The contour
extraction `cv::findContours` is a parameter; when it throws, the exception is
swallowed and nothing is drawn. -/
def drawResult (findContours : Mat → Option (List Contour)) (frame mask : Mat)
    (color : Scalar) : Drawing :=
  if frame.empty then ⟨Mat.nil, []⟩
  else if mask.empty then ⟨frame, []⟩
  else
    match findContours mask with
    | none => ⟨frame, []⟩
    | some contours => ⟨frame, contours.foldl (drawStep contours color) []⟩

/-- All the contours outlined in a drawing. -/
def Drawing.outlined (d : Drawing) : List Contour := d.ops.flatMap DrawOp.outlined

/-- All the label anchors of a drawing. -/
def Drawing.labels (d : Drawing) : List Point := d.ops.flatMap DrawOp.label

/-! ## task5: hue names -/

/-- Function `hueToColor` of `task5_webcam.cpp`: the (Russian) name of the colour
band of a hue — red, orange, yellow, green, cyan, blue, violet in this order. -/
def hueToColor (h : ℤ) : String :=
  if h ≤ 10 ∨ h ≥ 170 then "Красный"
  else if h ≤ 25 then "Оранжевый"
  else if h ≤ 35 then "Жёлтый"
  else if h ≤ 85 then "Зелёный"
  else if h ≤ 100 then "Голубой"
  else if h ≤ 140 then "Синий"
  else "Фиолетовый"

/-! ## task6: coverage statistic -/

/-- The function `cv::countNonZero`: the number of non-zero samples of a
single-channel matrix, an `int`; a matrix of several channels is rejected with
an exception, and a count outside the range of `int` is undefined. -/
def countNonZero (m : Mat) : Option ℕ :=
  if m.channels = 1 then
    let n := (m.data.map (fun row => (row.filter (fun v => v != 0)).length)).sum
    if n < 2 ^ 31 then some n else none
  else none

/-- The coverage statistic of `main` in `task6_webcam.cpp`, the `double`
expression `100.0 * countNonZero(mask) / (frame.total())`; a division by a zero
total gives no number. -/
def coverage (frame mask : Mat) : Option ℚ :=
  (countNonZero mask).bind (fun (n : ℕ) =>
    if frame.total = 0 then none
    else some (fl64 (fl64 (100 * (n : ℚ)) / fl64 (frame.total : ℚ))))

/-- Following the spec's words: the number of non-zero mask pixels. -/
def nonZeroPixels (mask : Mat) : ℕ :=
  Finset.sum (Finset.range mask.rows) (fun y =>
    Finset.sum (Finset.range mask.cols) (fun x => if mask.sample y x 0 ≠ 0 then 1 else 0))

/-! ## task3: the divisions of `manualBGR2HSV` -/

/-- A `float` division that records its divisor: `none` when the divisor is
zero. -/
def checkedDiv (x y : ℚ) : Option ℚ := if y = 0 then none else some (fl32 (x / y))

/-- The hue computation of `manualBGR2HSV` (as `hueFloat`) with each division
by `delta` checked: `none` if a division by a zero `delta` is performed. -/
def hueChecked (b g r : ℚ) : Option ℚ :=
  let max_val := max r (max g b)
  let min_val := min r (min g b)
  let delta := fl32 (max_val - min_val)
  let h0 : Option ℚ :=
    if delta > c0001 then
      let h1 : Option ℚ :=
        if max_val = r then
          (checkedDiv (fl32 (g - b)) delta).map (fun q => fl32 (fl64 (60 * fmodQ q 6)))
        else if max_val = g then
          (checkedDiv (fl32 (b - r)) delta).map (fun q => fl32 (60 * fl32 (q + 2)))
        else
          (checkedDiv (fl32 (r - g)) delta).map (fun q => fl32 (60 * fl32 (q + 4)))
      h1.map (fun h1 => if h1 < 0 then fl32 (h1 + 360) else h1)
    else some 0
  h0.map (fun h0 =>
    let h2 := fl32 (h0 / 2)
    let h3 := if h2 > 179 then 179 else h2
    if h3 < 0 then 0 else h3)

/-- The saturation computation of `manualBGR2HSV` (as `satFloat`) with the
division by `max_val` checked: `none` if a division by a zero `max_val` is
performed. -/
def satChecked (b g r : ℚ) : Option ℚ :=
  let max_val := max r (max g b)
  let min_val := min r (min g b)
  let delta := fl32 (max_val - min_val)
  let s0 : Option ℚ :=
    if max_val > c0001 then (checkedDiv delta max_val).map (fun q => fl32 (q * 255))
    else some 0
  s0.map (fun s0 => if s0 > 255 then 255 else s0)

/-! ## Example inputs -/

/-- A 7×7 HSV frame that is black except for the centre pixel (120, 200, 200). -/
def spotFrame : Mat :=
  ⟨7, 7, 3, [List.replicate 21 0, List.replicate 21 0, List.replicate 21 0,
    List.replicate 9 0 ++ [120, 200, 200] ++ List.replicate 9 0,
    List.replicate 21 0, List.replicate 21 0, List.replicate 21 0]⟩

/-- A colour range whose lower and upper bounds are both (120, 200, 200). -/
def spotConfig : ColorConfig :=
  ⟨"Spot", ⟨120, 200, 200, 0⟩, ⟨120, 200, 200, 0⟩, ⟨0, 255, 0, 0⟩⟩

/-- The range Blue of the constructor. -/
def blueConfig : ColorConfig :=
  ⟨"Blue", ⟨100, 50, 50, 0⟩, ⟨140, 255, 255, 0⟩, ⟨255, 0, 0, 0⟩⟩

/-- The range Red (low hues) of the constructor, `colors[1]`. -/
def redLowConfig : ColorConfig :=
  ⟨"Red", ⟨0, 50, 50, 0⟩, ⟨10, 255, 255, 0⟩, ⟨0, 0, 255, 0⟩⟩

/-- The range Red2 (high hues) of the constructor, `colors[2]`. -/
def redHighConfig : ColorConfig :=
  ⟨"Red2", ⟨170, 50, 50, 0⟩, ⟨180, 255, 255, 0⟩, ⟨0, 0, 255, 0⟩⟩

/-- The contour of a 10×10 square: area 100. -/
def smallSquare : Contour := [(0, 0), (10, 0), (10, 10), (0, 10)]

/-- The contour of a 30×20 rectangle: area 600. -/
def bigRect : Contour := [(20, 20), (50, 20), (50, 40), (20, 40)]

/-- The 17 peaks of height 100 at the buckets 5, 15, …, 165. -/
def seventeenPeaks : List (ℕ × ℚ) :=
  [(5, 100), (15, 100), (25, 100), (35, 100), (45, 100), (55, 100), (65, 100), (75, 100),
    (85, 100), (95, 100), (105, 100), (115, 100), (125, 100), (135, 100), (145, 100),
    (155, 100), (165, 100)]

/-- A frame of one pixel of hue 5, saturation 200 and value 200. -/
def redPixel : Mat := ⟨1, 1, 3, [[5, 200, 200]]⟩

/-- The calls of `segmentByColor` when the call for the range `failed` fails and
returns the empty `Mat()`. -/
def failingSegment (failed : ColorConfig) : Mat → ColorConfig → Mat :=
  fun hsv cfg => if cfg = failed then Mat.nil else segmentByColor hsv cfg

/-! ## Facts about floating point, loops and the conversions -/

/-! ## Facts about the rounding functions -/

theorem roundNearestEven_abs_sub_le (m : ℚ) : |(roundNearestEven m : ℚ) - m| ≤ 1 / 2 := by
  have h1 : (⌊m⌋ : ℚ) ≤ m := Int.floor_le m
  have h2 : m < ⌊m⌋ + 1 := Int.lt_floor_add_one m
  unfold roundNearestEven
  simp only
  split_ifs with ha hb hc
  · rw [abs_le]; constructor <;> linarith
  · rw [abs_le]; push_cast; constructor <;> linarith
  · rw [abs_le]; constructor <;> linarith
  · rw [abs_le]; push_cast; constructor <;> linarith

theorem roundNearestEven_intCast (k : ℤ) : roundNearestEven (k : ℚ) = k := by
  unfold roundNearestEven
  simp

theorem roundNearestEven_nonneg {m : ℚ} (hm : 0 ≤ m) : 0 ≤ roundNearestEven m := by
  have h0 : 0 ≤ ⌊m⌋ := Int.floor_nonneg.mpr hm
  unfold roundNearestEven
  simp only
  split_ifs <;> omega

theorem roundSig_zero (p : ℕ) : roundSig p 0 = 0 := by
  simp [roundSig]

theorem roundSig_nonneg (p : ℕ) {q : ℚ} (hq : 0 ≤ q) : 0 ≤ roundSig p q := by
  unfold roundSig
  split_ifs with h0
  · exact le_refl 0
  · simp only
    have hu : (0 : ℚ) < (2 : ℚ) ^ (Int.log 2 |q| - ((p : ℤ) - 1)) := by positivity
    have hm : 0 ≤ roundNearestEven (q / (2 : ℚ) ^ (Int.log 2 |q| - ((p : ℤ) - 1))) :=
      roundNearestEven_nonneg (div_nonneg hq hu.le)
    have hm2 : (0 : ℚ) ≤ (roundNearestEven (q / (2 : ℚ) ^ (Int.log 2 |q| - ((p : ℤ) - 1))) : ℚ) := by
      exact_mod_cast hm
    exact mul_nonneg hm2 hu.le

theorem roundSig_abs_sub_le (p : ℕ) (q : ℚ) :
    |roundSig p q - q| ≤ |q| * (2 : ℚ) ^ (-(p : ℤ)) := by
  unfold roundSig
  split_ifs with h0
  · simp [h0]
  · simp only
    set e := Int.log 2 |q| with he
    set ulp : ℚ := (2 : ℚ) ^ (e - ((p : ℤ) - 1)) with hulp
    have hu : 0 < ulp := by positivity
    have habs : 0 < |q| := abs_pos.mpr h0
    have hlow : (2 : ℚ) ^ e ≤ |q| := by
      have := Int.zpow_log_le_self (R := ℚ) (b := 2) (by norm_num) habs
      simpa using this
    have hr := roundNearestEven_abs_sub_le (q / ulp)
    have hq : q = (q / ulp) * ulp := by field_simp
    have h1 : (roundNearestEven (q / ulp) : ℚ) * ulp - q
        = ((roundNearestEven (q / ulp) : ℚ) - q / ulp) * ulp := by
      rw [sub_mul]; congr 1
    rw [h1, abs_mul, abs_of_pos hu]
    have h2 : ulp * (1 / 2) = (2 : ℚ) ^ e * (2 : ℚ) ^ (-(p : ℤ)) := by
      rw [hulp, ← zpow_add₀ (by norm_num : (2 : ℚ) ≠ 0)]
      have : e - ((p : ℤ) - 1) = (e + -(p : ℤ)) + 1 := by ring
      rw [this, zpow_add_one₀ (by norm_num : (2 : ℚ) ≠ 0)]
      ring
    calc |(roundNearestEven (q / ulp) : ℚ) - q / ulp| * ulp ≤ (1 / 2) * ulp :=
          mul_le_mul_of_nonneg_right hr hu.le
      _ = (2 : ℚ) ^ e * (2 : ℚ) ^ (-(p : ℤ)) := by rw [← h2]; ring
      _ ≤ |q| * (2 : ℚ) ^ (-(p : ℤ)) :=
          mul_le_mul_of_nonneg_right hlow (by positivity)

theorem roundSig_natCast (p : ℕ) (n : ℕ) (hn : n < 2 ^ p) : roundSig p (n : ℚ) = n := by
  unfold roundSig
  split_ifs with h0
  · exact h0.symm
  · simp only
    have hnpos : 0 < n := by
      rcases Nat.eq_zero_or_pos n with h | h
      · exact absurd (by simp [h]) h0
      · exact h
    have habs : |(n : ℚ)| = n := abs_of_nonneg (by positivity)
    rw [habs, Int.log_natCast]
    have hlog : Nat.log 2 n < p := by
      by_contra hcon
      push_neg at hcon
      have h1 : 2 ^ p ≤ 2 ^ Nat.log 2 n := Nat.pow_le_pow_right (by norm_num) hcon
      have h2 : 2 ^ Nat.log 2 n ≤ n := Nat.pow_log_le_self 2 (by omega)
      omega
    obtain ⟨k, hk⟩ : ∃ k : ℕ, p = Nat.log 2 n + 1 + k := ⟨p - (Nat.log 2 n + 1), by omega⟩
    have hexp : ((Nat.log 2 n : ℕ) : ℤ) - ((p : ℤ) - 1) = -(k : ℤ) := by
      rw [hk]; push_cast; ring
    rw [hexp, zpow_neg, zpow_natCast]
    have hdiv : (n : ℚ) / ((2 : ℚ) ^ k)⁻¹ = ((n * 2 ^ k : ℕ) : ℤ) := by
      push_cast; field_simp
    rw [hdiv, roundNearestEven_intCast]
    push_cast
    field_simp


/-! ## Facts about the loops -/

theorem forLoop_some {α : Type} (f : ℕ → Option α) (n : ℕ)
    (h : ∀ i, i < n → ∃ a, f i = some a) :
    ∃ l, forLoop f n = some l ∧ l.length = n ∧ ∀ i, i < n → l[i]? = f i := by
  induction n with
  | zero => exact ⟨[], rfl, rfl, fun i hi => absurd hi (Nat.not_lt_zero i)⟩
  | succ n ih =>
    obtain ⟨l, hl, hlen, hget⟩ := ih (fun i hi => h i (Nat.lt_succ_of_lt hi))
    obtain ⟨a, ha⟩ := h n (Nat.lt_succ_self n)
    refine ⟨l ++ [a], by simp [forLoop, hl, ha], by simp [hlen], ?_⟩
    intro i hi
    rcases Nat.lt_succ_iff_lt_or_eq.mp hi with hlt | heq
    · rw [List.getElem?_append_left (by omega)]
      exact hget i hlt
    · subst heq
      rw [List.getElem?_append_right (by omega)]
      simp [hlen, ha]

theorem forLoop_length {α : Type} (f : ℕ → Option α) (n : ℕ) (l : List α)
    (h : forLoop f n = some l) : l.length = n := by
  induction n generalizing l with
  | zero => simp [forLoop] at h; simp [← h]
  | succ n ih =>
    simp only [forLoop, Option.bind_eq_some, Option.map_eq_some'] at h
    obtain ⟨l0, hl0, a, _, rfl⟩ := h
    simp [ih l0 hl0]

/-- Reading a sample of a well-formed matrix inside its bounds succeeds and
yields a byte. -/
theorem Mat.WellFormed.row_get {m : Mat} (hwf : m.WellFormed) {y : ℕ} (hy : y < m.rows) :
    ∃ row, m.data[y]? = some row ∧ row.length = m.cols * m.channels ∧
      ∀ i, i < m.cols * m.channels → ∃ v, row[i]? = some v ∧ v < 256 := by
  obtain ⟨_, hlen, hrows⟩ := hwf
  have hy2 : y < m.data.length := by omega
  refine ⟨m.data[y], List.getElem?_eq_getElem hy2, (hrows _ (List.getElem_mem hy2)).1, ?_⟩
  intro i hi
  have hrl := (hrows _ (List.getElem_mem hy2)).1
  have hi2 : i < (m.data[y]).length := by omega
  exact ⟨(m.data[y])[i], List.getElem?_eq_getElem hi2,
    (hrows _ (List.getElem_mem hy2)).2 _ (List.getElem_mem hi2)⟩


theorem fl64_close {x : ℚ} (h0 : 0 ≤ x) (h1 : x ≤ 256) : |fl64 x - x| ≤ 1 / 2 ^ 45 := by
  have h := roundSig_abs_sub_le 53 x
  rw [abs_of_nonneg h0] at h
  have h2 : x * (2 : ℚ) ^ (-((53 : ℕ) : ℤ)) ≤ 256 * (2 : ℚ) ^ (-((53 : ℕ) : ℤ)) :=
    mul_le_mul_of_nonneg_right h1 (by positivity)
  have h3 : (256 : ℚ) * (2 : ℚ) ^ (-((53 : ℕ) : ℤ)) = 1 / 2 ^ 45 := by
    rw [zpow_neg, zpow_natCast]; norm_num
  exact h.trans (h2.trans h3.le)

theorem mul_close {c c0 d b : ℚ} (hc : |c - c0| ≤ d) (hb0 : 0 ≤ b) (hb : b ≤ 255) :
    |c * b - c0 * b| ≤ d * 255 := by
  have hd : 0 ≤ d := le_trans (abs_nonneg _) hc
  rw [← sub_mul, abs_mul, abs_of_nonneg hb0]
  exact mul_le_mul hc hb hb0 hd

theorem c114_close : |c114 - 114 / 1000| ≤ 1 / 2 ^ 54 := by decide!

theorem c587_close : |c587 - 587 / 1000| ≤ 1 / 2 ^ 54 := by decide!

theorem c299_close : |c299 - 299 / 1000| ≤ 1 / 2 ^ 54 := by decide!

/-- The double-precision weighted sum of `manualBGR2Gray` differs from the
exact weighted sum by at most `10⁻¹²`. -/
theorem graySum_close {b g r : ℕ} (hb : b ≤ 255) (hg : g ≤ 255) (hr : r ≤ 255) :
    |graySum b g r - lumaExact b g r| ≤ 1 / 10 ^ 12 := by
  have hb0 : (0 : ℚ) ≤ b := by positivity
  have hg0 : (0 : ℚ) ≤ g := by positivity
  have hr0 : (0 : ℚ) ≤ r := by positivity
  have hb1 : (b : ℚ) ≤ 255 := by exact_mod_cast hb
  have hg1 : (g : ℚ) ≤ 255 := by exact_mod_cast hg
  have hr1 : (r : ℚ) ≤ 255 := by exact_mod_cast hr
  have e1 := abs_le.mp (mul_close c114_close hb0 hb1)
  have e2 := abs_le.mp (mul_close c587_close hg0 hg1)
  have e3 := abs_le.mp (mul_close c299_close hr0 hr1)
  have p1 : 0 ≤ c114 * b := mul_nonneg (roundSig_nonneg 53 (by norm_num)) hb0
  have p2 : 0 ≤ c587 * g := mul_nonneg (roundSig_nonneg 53 (by norm_num)) hg0
  have p3 : 0 ≤ c299 * r := mul_nonneg (roundSig_nonneg 53 (by norm_num)) hr0
  have f1 := abs_le.mp (fl64_close (x := c114 * b) p1 (by norm_num at e1 ⊢; linarith [e1.2]))
  have f2 := abs_le.mp (fl64_close (x := c587 * g) p2 (by norm_num at e2 ⊢; linarith [e2.2]))
  have f3 := abs_le.mp (fl64_close (x := c299 * r) p3 (by norm_num at e3 ⊢; linarith [e3.2]))
  have f4 := abs_le.mp (fl64_close (x := fl64 (c114 * b) + fl64 (c587 * g))
    (add_nonneg (roundSig_nonneg 53 p1) (roundSig_nonneg 53 p2))
    (by norm_num at e1 e2 f1 f2 ⊢; linarith [e1.2, e2.2, f1.2, f2.2]))
  have f5 := abs_le.mp (fl64_close
    (x := fl64 (fl64 (c114 * b) + fl64 (c587 * g)) + fl64 (c299 * r))
    (add_nonneg (roundSig_nonneg 53 (add_nonneg (roundSig_nonneg 53 p1)
      (roundSig_nonneg 53 p2))) (roundSig_nonneg 53 p3))
    (by norm_num at e1 e2 e3 f1 f2 f3 f4 ⊢; linarith [e1.2, e2.2, e3.2, f1.2, f2.2, f3.2, f4.2]))
  unfold graySum lumaExact
  rw [abs_le]
  norm_num at e1 e2 e3 f1 f2 f3 f4 f5 ⊢
  constructor <;> linarith [e1.1, e2.1, e3.1, f1.1, f2.1, f3.1, f4.1, f5.1,
    e1.2, e2.2, e3.2, f1.2, f2.2, f3.2, f4.2, f5.2]


theorem castUchar_of_range {s : ℚ} (h0 : 0 ≤ s) (h1 : s < 256) :
    castUchar s = some ⌊s⌋.toNat ∧ ⌊s⌋.toNat ≤ 255 := by
  have hf0 : 0 ≤ ⌊s⌋ := Int.floor_nonneg.mpr h0
  have hf1 : ⌊s⌋ < 256 := by
    have : (⌊s⌋ : ℚ) < 256 := lt_of_le_of_lt (Int.floor_le s) h1
    exact_mod_cast this
  refine ⟨?_, by omega⟩
  unfold castUchar truncQ
  simp only [h0, if_true]
  rw [if_pos ⟨hf0, by omega⟩]

theorem floor_of_near {s : ℚ} {k rem : ℕ} (hrem : rem ≤ 999)
    (hclose : |s - ((k : ℚ) + (rem : ℚ) / 1000)| ≤ 1 / 10 ^ 12) (hs0 : 0 ≤ s) :
    (rem ≠ 0 → ⌊s⌋.toNat = k) ∧ (⌊s⌋.toNat = k ∨ ⌊s⌋.toNat + 1 = k) := by
  have hc := abs_le.mp hclose
  have hremq : (rem : ℚ) ≤ 999 := by exact_mod_cast hrem
  have hrem0 : (0 : ℚ) ≤ (rem : ℚ) := by positivity
  have key : ∀ j : ℤ, (j : ℚ) ≤ s → s < (j : ℚ) + 1 → ⌊s⌋ = j := by
    intro j h1 h2
    rw [Int.floor_eq_iff]; exact ⟨h1, h2⟩
  have hpos : rem ≠ 0 → ⌊s⌋ = (k : ℤ) := by
    intro hne
    have hrem1 : (1 : ℚ) ≤ (rem : ℚ) := by
      have : 1 ≤ rem := Nat.one_le_iff_ne_zero.mpr hne
      exact_mod_cast this
    apply key
    · simp only [Int.cast_natCast]; norm_num at hc ⊢; linarith [hc.1]
    · simp only [Int.cast_natCast]; norm_num at hc ⊢; linarith [hc.2]
  refine ⟨fun hne => by rw [hpos hne]; simp, ?_⟩
  by_cases hz : rem = 0
  · by_cases hge : (k : ℚ) ≤ s
    · left
      have hfl : ⌊s⌋ = (k : ℤ) := by
        apply key
        · simpa using hge
        · subst hz
          simp only [Int.cast_natCast]; norm_num at hc ⊢; linarith [hc.2]
      rw [hfl]; simp
    · right
      push_neg at hge
      have hkpos : 1 ≤ k := by
        by_contra hcon
        have h0 : k = 0 := by omega
        subst h0
        simp at hge
        linarith
      have hfl : ⌊s⌋ = (k : ℤ) - 1 := by
        apply key
        · subst hz
          push_cast; norm_num at hc ⊢; linarith [hc.1]
        · push_cast; linarith
      rw [hfl]
      omega
  · left
    rw [hpos hz]; simp

/-- The gray sample stored for one pixel: the weighted sum rounded down,
except that an exactly integral weighted sum may lose one unit. -/
theorem grayPixel_floor {b g r : ℕ} (hb : b ≤ 255) (hg : g ≤ 255) (hr : r ≤ 255) :
    ∃ p, grayPixel b g r = some p ∧ p ≤ 255 ∧
      ((114 * b + 587 * g + 299 * r) % 1000 ≠ 0 → p = (114 * b + 587 * g + 299 * r) / 1000) ∧
      (p = (114 * b + 587 * g + 299 * r) / 1000 ∨
        p + 1 = (114 * b + 587 * g + 299 * r) / 1000) := by
  have hclose := graySum_close hb hg hr
  have hlum : lumaExact b g r = (((114 * b + 587 * g + 299 * r) / 1000 : ℕ) : ℚ) +
      (((114 * b + 587 * g + 299 * r) % 1000 : ℕ) : ℚ) / 1000 := by
    have h1 := Nat.div_add_mod (114 * b + 587 * g + 299 * r) 1000
    have h2 : (114 * (b : ℚ) + 587 * (g : ℚ) + 299 * (r : ℚ)) =
        ((1000 * ((114 * b + 587 * g + 299 * r) / 1000) +
          (114 * b + 587 * g + 299 * r) % 1000 : ℕ) : ℚ) := by
      rw [h1]; push_cast; ring
    unfold lumaExact
    rw [h2, Nat.cast_add, Nat.cast_mul]; push_cast; ring
  rw [hlum] at hclose
  have hremle : (114 * b + 587 * g + 299 * r) % 1000 ≤ 999 := by omega
  have hk : (114 * b + 587 * g + 299 * r) / 1000 ≤ 255 := by omega
  generalize (114 * b + 587 * g + 299 * r) / 1000 = k at *
  generalize (114 * b + 587 * g + 299 * r) % 1000 = rem at *
  have hs0 : 0 ≤ graySum b g r := by
    unfold graySum
    exact roundSig_nonneg 53 (add_nonneg (roundSig_nonneg 53 (add_nonneg
      (roundSig_nonneg 53 (mul_nonneg (roundSig_nonneg 53 (by norm_num)) (by positivity)))
      (roundSig_nonneg 53 (mul_nonneg (roundSig_nonneg 53 (by norm_num)) (by positivity)))))
      (roundSig_nonneg 53 (mul_nonneg (roundSig_nonneg 53 (by norm_num)) (by positivity))))
  have hs1 : graySum b g r < 256 := by
    have hc := abs_le.mp hclose
    have hkq : (k : ℚ) ≤ 255 := by exact_mod_cast hk
    have hremq : (rem : ℚ) ≤ 999 := by exact_mod_cast hremle
    norm_num at hc ⊢; linarith [hc.2]
  obtain ⟨hcast, hle⟩ := castUchar_of_range hs0 hs1
  obtain ⟨hA, hB⟩ := floor_of_near hremle hclose hs0
  exact ⟨⌊graySum b g r⌋.toNat, hcast, hle, hA, hB⟩

theorem Mat.type_eq_CV_8UC3 (m : Mat) : m.type = CV_8UC3 ↔ m.channels = 3 := by
  unfold Mat.type CV_8UC3; omega

/-- The three samples of a pixel of a well-formed 3-channel frame. -/
theorem Mat.WellFormed.pixel3 {m : Mat} (hwf : m.WellFormed) (h3 : m.channels = 3)
    {y x : ℕ} (hy : y < m.rows) (hx : x < m.cols) :
    ∃ row B G R, m.data[y]? = some row ∧ row[x * 3]? = some B ∧ row[x * 3 + 1]? = some G ∧
      row[x * 3 + 2]? = some R ∧ B ≤ 255 ∧ G ≤ 255 ∧ R ≤ 255 ∧
      m.at y x 0 = some B ∧ m.at y x 1 = some G ∧ m.at y x 2 = some R := by
  obtain ⟨row, hrow, _, hget⟩ := hwf.row_get hy
  rw [h3] at hget
  obtain ⟨B, hB, hB2⟩ := hget (x * 3) (by omega)
  obtain ⟨G, hG, hG2⟩ := hget (x * 3 + 1) (by omega)
  obtain ⟨R, hR, hR2⟩ := hget (x * 3 + 2) (by omega)
  refine ⟨row, B, G, R, hrow, hB, hG, hR, by omega, by omega, by omega, ?_, ?_, ?_⟩ <;>
    simp [Mat.at, hrow, h3, hB, hG, hR]

/-- One iteration of the inner loop of `manualBGR2Gray` on a valid frame. -/
theorem grayIter_some {bgr : Mat} (hwf : bgr.WellFormed) (h3 : bgr.channels = 3)
    {y x : ℕ} (hy : y < bgr.rows) (hx : x < bgr.cols) {row : List ℕ}
    (hrow : bgr.data[y]? = some row) :
    ∃ B G R p, bgr.at y x 0 = some B ∧ bgr.at y x 1 = some G ∧ bgr.at y x 2 = some R ∧
      B ≤ 255 ∧ G ≤ 255 ∧ R ≤ 255 ∧ grayPixel B G R = some p ∧
      (row[x * 3]?).bind (fun b => (row[x * 3 + 1]?).bind (fun g =>
        (row[x * 3 + 2]?).bind (fun r => grayPixel b g r))) = some p := by
  obtain ⟨row2, B, G, R, hrow2, hB, hG, hR, hB2, hG2, hR2, hatB, hatG, hatR⟩ :=
    hwf.pixel3 h3 hy hx
  have hrr : row2 = row := by rw [hrow] at hrow2; exact (Option.some.inj hrow2).symm
  rw [hrr] at hB hG hR
  obtain ⟨p, hp, _⟩ := grayPixel_floor hB2 hG2 hR2
  exact ⟨B, G, R, p, hatB, hatG, hatR, hB2, hG2, hR2, hp, by simp [hB, hG, hR, hp]⟩

/-- Shape and per-pixel content of the result of `manualBGR2Gray` on a valid
frame: the conversion is defined and every pixel holds `grayPixel` of the
source pixel. -/
theorem manualBGR2Gray_pixels (bgr : Mat) (hwf : bgr.WellFormed) (hne : bgr.empty = false)
    (h3 : bgr.channels = 3) :
    ∃ gray, manualBGR2Gray bgr = some gray ∧ gray.rows = bgr.rows ∧ gray.cols = bgr.cols ∧
      gray.channels = 1 ∧ gray.data.length = bgr.rows ∧
      (∀ row ∈ gray.data, row.length = bgr.cols) ∧
      ∀ y x, y < bgr.rows → x < bgr.cols →
        ∃ B G R p, bgr.at y x 0 = some B ∧ bgr.at y x 1 = some G ∧ bgr.at y x 2 = some R ∧
          B ≤ 255 ∧ G ≤ 255 ∧ R ≤ 255 ∧ grayPixel B G R = some p ∧ gray.at y x 0 = some p := by
  have hty : bgr.type = CV_8UC3 := (Mat.type_eq_CV_8UC3 bgr).mpr h3
  have hrowloop : ∀ y, y < bgr.rows → ∀ row, bgr.data[y]? = some row →
      ∃ l, forLoop (fun x =>
          let idx := x * 3
          (row[idx]?).bind (fun b =>
          (row[idx + 1]?).bind (fun g =>
          (row[idx + 2]?).bind (fun r =>
            grayPixel b g r)))) bgr.cols = some l ∧ l.length = bgr.cols ∧
        ∀ x, x < bgr.cols → l[x]? = (row[x * 3]?).bind (fun b => (row[x * 3 + 1]?).bind (fun g =>
          (row[x * 3 + 2]?).bind (fun r => grayPixel b g r))) := by
    intro y hy row hrow
    apply forLoop_some
    intro x hx
    obtain ⟨B, G, R, p, _, _, _, _, _, _, _, hit⟩ := grayIter_some hwf h3 hy hx hrow
    exact ⟨p, hit⟩
  have hinner : ∀ y, y < bgr.rows → ∃ a,
      (bgr.ptr y).bind (fun bgr_ptr =>
        forLoop (fun x =>
          let idx := x * 3
          (bgr_ptr[idx]?).bind (fun b =>
          (bgr_ptr[idx + 1]?).bind (fun g =>
          (bgr_ptr[idx + 2]?).bind (fun r =>
            grayPixel b g r)))) bgr.cols) = some a := by
    intro y hy
    obtain ⟨row, hrow, _, _⟩ := hwf.row_get hy
    obtain ⟨l, hl, _, _⟩ := hrowloop y hy row hrow
    exact ⟨l, by simp only [Mat.ptr, hrow, Option.some_bind]; exact hl⟩
  obtain ⟨L, hL, hLlen, hLget⟩ := forLoop_some _ bgr.rows hinner
  refine ⟨⟨bgr.rows, bgr.cols, 1, L⟩, ?_, rfl, rfl, rfl, hLlen, ?_, ?_⟩
  · unfold manualBGR2Gray
    simp [hne, hty, hL]
  · intro row hmem
    obtain ⟨y, hy, hyrow⟩ := List.mem_iff_getElem.mp hmem
    have hy2 : y < bgr.rows := by simpa [hLlen] using hy
    have h1 := hLget y hy2
    rw [List.getElem?_eq_getElem hy, hyrow] at h1
    obtain ⟨src, hsrc, _, _⟩ := hwf.row_get hy2
    simp only [Mat.ptr, hsrc, Option.some_bind] at h1
    exact forLoop_length _ _ _ h1.symm
  · intro y x hy hx
    obtain ⟨row, hrow, _, _⟩ := hwf.row_get hy
    obtain ⟨B, G, R, p, hatB, hatG, hatR, hB2, hG2, hR2, hp, hit⟩ :=
      grayIter_some hwf h3 hy hx hrow
    refine ⟨B, G, R, p, hatB, hatG, hatR, hB2, hG2, hR2, hp, ?_⟩
    have h1 := hLget y hy
    simp only [Mat.ptr, hrow, Option.some_bind] at h1
    obtain ⟨l, hl, _, hlget⟩ := hrowloop y hy row hrow
    rw [hl] at h1
    have h2 := hlget x hx
    rw [hit] at h2
    simp [Mat.at, h1, h2]

theorem castUchar_of_le {x : ℚ} {M : ℕ} (h0 : 0 ≤ x) (h1 : x ≤ M) (hM : M ≤ 255) :
    ∃ n, castUchar x = some n ∧ n ≤ M := by
  have hlt : x < 256 := by
    have : (M : ℚ) ≤ 255 := by exact_mod_cast hM
    linarith
  obtain ⟨hc, _⟩ := castUchar_of_range h0 hlt
  refine ⟨_, hc, ?_⟩
  have hf : ⌊x⌋ ≤ (M : ℤ) := by
    have : (⌊x⌋ : ℚ) ≤ ((M : ℤ) : ℚ) := by
      simp only [Int.cast_natCast]; exact le_trans (Int.floor_le x) h1
    exact_mod_cast this
  omega

theorem clampHue_range (h2 : ℚ) :
    0 ≤ (if (if h2 > 179 then 179 else h2) < 0 then 0 else (if h2 > 179 then 179 else h2)) ∧
      (if (if h2 > 179 then 179 else h2) < 0 then 0 else (if h2 > 179 then 179 else h2))
        ≤ ((179 : ℕ) : ℚ) := by
  split_ifs <;> constructor <;> norm_num <;> linarith

theorem clamp255_range {s0 : ℚ} (h : 0 ≤ s0) :
    0 ≤ (if s0 > 255 then 255 else s0) ∧ (if s0 > 255 then 255 else s0) ≤ ((255 : ℕ) : ℚ) := by
  split_ifs <;> constructor <;> norm_num <;> linarith

theorem hueFloat_range (b g r : ℚ) : 0 ≤ hueFloat b g r ∧ hueFloat b g r ≤ ((179 : ℕ) : ℚ) := by
  unfold hueFloat
  exact clampHue_range _

theorem satFloat_range {b g r : ℚ} (hr : 0 ≤ r) :
    0 ≤ satFloat b g r ∧ satFloat b g r ≤ ((255 : ℕ) : ℚ) := by
  unfold satFloat
  apply clamp255_range
  have hmax : 0 ≤ max r (max g b) := le_max_of_le_left hr
  have hmm : min r (min g b) ≤ max r (max g b) := le_trans (min_le_left _ _) (le_max_left _ _)
  have hdelta : 0 ≤ fl32 (max r (max g b) - min r (min g b)) :=
    roundSig_nonneg 24 (sub_nonneg.mpr hmm)
  split_ifs
  · exact roundSig_nonneg 24 (mul_nonneg (roundSig_nonneg 24 (div_nonneg hdelta hmax))
      (by norm_num))
  · exact le_refl 0

theorem valFloat_range {b g r : ℚ} (hr : 0 ≤ r) :
    0 ≤ valFloat b g r ∧ valFloat b g r ≤ ((255 : ℕ) : ℚ) := by
  unfold valFloat
  apply clamp255_range
  exact roundSig_nonneg 24 (mul_nonneg (le_max_of_le_left hr) (by norm_num))

/-- The HSV samples stored for one pixel are defined and within their ranges. -/
theorem hsvPixel_range (B G R : ℕ) :
    ∃ h s v, hsvPixel B G R = some (h, s, v) ∧ h ≤ 179 ∧ s ≤ 255 ∧ v ≤ 255 := by
  have hr : 0 ≤ fl32 ((R : ℚ) / 255) := roundSig_nonneg 24 (by positivity)
  obtain ⟨h, hh, hh2⟩ := castUchar_of_le (hueFloat_range _ _ _).1 (hueFloat_range
    (fl32 ((B : ℚ) / 255)) (fl32 ((G : ℚ) / 255)) (fl32 ((R : ℚ) / 255))).2 (by norm_num)
  obtain ⟨s, hs, hs2⟩ := castUchar_of_le (satFloat_range (b := fl32 ((B : ℚ) / 255))
    (g := fl32 ((G : ℚ) / 255)) hr).1 (satFloat_range hr).2 (by norm_num)
  obtain ⟨v, hv, hv2⟩ := castUchar_of_le (valFloat_range (b := fl32 ((B : ℚ) / 255))
    (g := fl32 ((G : ℚ) / 255)) hr).1 (valFloat_range hr).2 (by norm_num)
  exact ⟨h, s, v, by simp [hsvPixel, hh, hs, hv], hh2, hs2, hv2⟩

theorem flatten_triples_length (px : List (ℕ × ℕ × ℕ)) :
    ((px.map (fun p => [p.1, p.2.1, p.2.2])).flatten).length = px.length * 3 := by
  induction px with
  | nil => rfl
  | cons a t ih => simp [ih]; omega

theorem flatten_triples_get (px : List (ℕ × ℕ × ℕ)) (x : ℕ) (p : ℕ × ℕ × ℕ)
    (hp : px[x]? = some p) :
    ((px.map (fun p => [p.1, p.2.1, p.2.2])).flatten)[x * 3]? = some p.1 ∧
    ((px.map (fun p => [p.1, p.2.1, p.2.2])).flatten)[x * 3 + 1]? = some p.2.1 ∧
    ((px.map (fun p => [p.1, p.2.1, p.2.2])).flatten)[x * 3 + 2]? = some p.2.2 := by
  induction px generalizing x with
  | nil => simp at hp
  | cons a t ih =>
    cases x with
    | zero =>
      simp at hp; subst hp; simp
    | succ x =>
      simp only [List.getElem?_cons_succ] at hp
      obtain ⟨h1, h2, h3⟩ := ih x hp
      have e1 : (x + 1) * 3 = x * 3 + 3 := by ring
      have e2 : (x + 1) * 3 + 1 = (x * 3 + 1) + 3 := by ring
      have e3 : (x + 1) * 3 + 2 = (x * 3 + 2) + 3 := by ring
      simp only [List.map_cons, List.flatten_cons, e1, e2, e3]
      refine ⟨?_, ?_, ?_⟩
      · rw [List.getElem?_append_right (by simp)]; simpa using h1
      · rw [List.getElem?_append_right (by simp)]; simpa using h2
      · rw [List.getElem?_append_right (by simp)]; simpa using h3

theorem bind3_some {α : Type} (row : List ℕ) (i : ℕ) (f : ℕ → ℕ → ℕ → Option α) {B G R : ℕ}
    (hB : row[i]? = some B) (hG : row[i + 1]? = some G) (hR : row[i + 2]? = some R) :
    (row[i]?).bind (fun b => (row[i + 1]?).bind (fun g =>
      (row[i + 2]?).bind (fun r => f b g r))) = f B G R := by
  rw [hB, hG, hR]; rfl

/-- One iteration of the inner loop of `manualBGR2HSV` on a valid frame. -/
theorem hsvIter_some {bgr : Mat} (hwf : bgr.WellFormed) (h3 : bgr.channels = 3)
    {y x : ℕ} (hy : y < bgr.rows) (hx : x < bgr.cols) {row : List ℕ}
    (hrow : bgr.data[y]? = some row) :
    ∃ (B G R : ℕ) (p : ℕ × ℕ × ℕ), bgr.at y x 0 = some B ∧ bgr.at y x 1 = some G ∧
      bgr.at y x 2 = some R ∧
      B ≤ 255 ∧ G ≤ 255 ∧ R ≤ 255 ∧ hsvPixel B G R = some p ∧
      (row[x * 3]?).bind (fun b => (row[x * 3 + 1]?).bind (fun g =>
        (row[x * 3 + 2]?).bind (fun r => hsvPixel b g r))) = some p := by
  obtain ⟨row2, B, G, R, hrow2, hB, hG, hR, hB2, hG2, hR2, hatB, hatG, hatR⟩ :=
    hwf.pixel3 h3 hy hx
  have hrr : row2 = row := by rw [hrow] at hrow2; exact (Option.some.inj hrow2).symm
  rw [hrr] at hB hG hR
  obtain ⟨h, s, v, hp, _⟩ := hsvPixel_range B G R
  exact ⟨B, G, R, (h, s, v), hatB, hatG, hatR, hB2, hG2, hR2, hp,
    (bind3_some row (x * 3) hsvPixel hB hG hR).trans hp⟩

/-- Shape and per-pixel content of the result of `manualBGR2HSV` on a valid
frame: the conversion is defined and every pixel holds `hsvPixel` of the source
pixel. -/
theorem manualBGR2HSV_pixels (bgr : Mat) (hwf : bgr.WellFormed) (hne : bgr.empty = false)
    (h3 : bgr.channels = 3) :
    ∃ hsv : Mat, manualBGR2HSV bgr = some hsv ∧ hsv.rows = bgr.rows ∧ hsv.cols = bgr.cols ∧
      hsv.channels = 3 ∧ hsv.data.length = bgr.rows ∧
      (∀ row ∈ hsv.data, row.length = bgr.cols * 3) ∧
      ∀ y x, y < bgr.rows → x < bgr.cols →
        ∃ (B G R h s v : ℕ), bgr.at y x 0 = some B ∧ bgr.at y x 1 = some G ∧
          bgr.at y x 2 = some R ∧ B ≤ 255 ∧ G ≤ 255 ∧ R ≤ 255 ∧
          hsvPixel B G R = some (h, s, v) ∧
          hsv.at y x 0 = some h ∧ hsv.at y x 1 = some s ∧ hsv.at y x 2 = some v := by
  have hty : bgr.type = CV_8UC3 := (Mat.type_eq_CV_8UC3 bgr).mpr h3
  have hrowloop : ∀ y, y < bgr.rows → ∀ row, bgr.data[y]? = some row →
      ∃ l, forLoop (fun x =>
          let idx := x * 3
          (row[idx]?).bind (fun b =>
          (row[idx + 1]?).bind (fun g =>
          (row[idx + 2]?).bind (fun r =>
            hsvPixel b g r)))) bgr.cols = some l ∧ l.length = bgr.cols ∧
        ∀ x, x < bgr.cols → l[x]? = (row[x * 3]?).bind (fun b => (row[x * 3 + 1]?).bind (fun g =>
          (row[x * 3 + 2]?).bind (fun r => hsvPixel b g r))) := by
    intro y hy row hrow
    apply forLoop_some
    intro x hx
    obtain ⟨B, G, R, p, _, _, _, _, _, _, _, hit⟩ := hsvIter_some hwf h3 hy hx hrow
    exact ⟨p, hit⟩
  have hinner : ∀ y, y < bgr.rows → ∃ a,
      (bgr.ptr y).bind (fun bgr_ptr =>
        (forLoop (fun x =>
          let idx := x * 3
          (bgr_ptr[idx]?).bind (fun b =>
          (bgr_ptr[idx + 1]?).bind (fun g =>
          (bgr_ptr[idx + 2]?).bind (fun r =>
            hsvPixel b g r)))) bgr.cols).map
          (fun px => (px.map (fun p => [p.1, p.2.1, p.2.2])).flatten)) = some a := by
    intro y hy
    obtain ⟨row, hrow, _, _⟩ := hwf.row_get hy
    obtain ⟨l, hl, _, _⟩ := hrowloop y hy row hrow
    refine ⟨(l.map (fun p => [p.1, p.2.1, p.2.2])).flatten, ?_⟩
    simp only [Mat.ptr, hrow, Option.some_bind]
    rw [hl, Option.map_some']
  obtain ⟨L, hL, hLlen, hLget⟩ := forLoop_some _ bgr.rows hinner
  refine ⟨⟨bgr.rows, bgr.cols, 3, L⟩, ?_, rfl, rfl, rfl, hLlen, ?_, ?_⟩
  · unfold manualBGR2HSV
    simp [hne, hty, hL]
  · intro row hmem
    obtain ⟨y, hy, hyrow⟩ := List.mem_iff_getElem.mp hmem
    have hy2 : y < bgr.rows := by simpa [hLlen] using hy
    have h1 := hLget y hy2
    rw [List.getElem?_eq_getElem hy, hyrow] at h1
    obtain ⟨src, hsrc, _, _⟩ := hwf.row_get hy2
    obtain ⟨l, hl, hllen, _⟩ := hrowloop y hy2 src hsrc
    simp only [Mat.ptr, hsrc, Option.some_bind] at h1
    rw [hl] at h1
    simp only [Option.map_some'] at h1
    have h2 := Option.some.inj h1
    rw [h2, flatten_triples_length, hllen]
  · intro y x hy hx
    obtain ⟨row, hrow, _, _⟩ := hwf.row_get hy
    obtain ⟨B, G, R, p, hatB, hatG, hatR, hB2, hG2, hR2, hp, hit⟩ :=
      hsvIter_some hwf h3 hy hx hrow
    refine ⟨B, G, R, p.1, p.2.1, p.2.2, hatB, hatG, hatR, hB2, hG2, hR2, hp, ?_⟩
    have h1 := hLget y hy
    simp only [Mat.ptr, hrow, Option.some_bind] at h1
    obtain ⟨l, hl, _, hlget⟩ := hrowloop y hy row hrow
    rw [hl] at h1
    simp only [Option.map_some'] at h1
    have h2 := hlget x hx
    rw [hit] at h2
    obtain ⟨g1, g2, g3⟩ := flatten_triples_get l x p h2
    simp only [Mat.at, h1, Option.some_bind]
    exact ⟨by simpa using g1, g2, g3⟩

/-- A matrix is well formed as soon as its storage has the right shape and
every sample read through `Mat.at` is a byte. -/
theorem Mat.wellFormed_of_at (m : Mat) (hc : 1 ≤ m.channels) (hlen : m.data.length = m.rows)
    (hrows : ∀ row ∈ m.data, row.length = m.cols * m.channels)
    (hat : ∀ y x c, y < m.rows → x < m.cols → c < m.channels →
      ∃ v, m.at y x c = some v ∧ v < 256) : m.WellFormed := by
  refine ⟨hc, hlen, fun row hmem => ⟨hrows row hmem, ?_⟩⟩
  intro v hv
  obtain ⟨y, hy, hyrow⟩ := List.mem_iff_getElem.mp hmem
  obtain ⟨i, hi, hiv⟩ := List.mem_iff_getElem.mp hv
  have hrl := hrows row hmem
  have hcpos : 0 < m.channels := hc
  have hx : i / m.channels < m.cols := by
    rw [Nat.div_lt_iff_lt_mul hcpos]; omega
  have hcm : i % m.channels < m.channels := Nat.mod_lt _ hcpos
  obtain ⟨w, hw, hw2⟩ := hat y (i / m.channels) (i % m.channels) (by omega) hx hcm
  have hidx : i / m.channels * m.channels + i % m.channels = i := by
    rw [Nat.mul_comm]; exact Nat.div_add_mod i m.channels
  have hread : m.at y (i / m.channels) (i % m.channels) = some v := by
    unfold Mat.at
    rw [List.getElem?_eq_getElem hy, hyrow, Option.some_bind, hidx,
      List.getElem?_eq_getElem hi, hiv]
  rw [hread] at hw
  have : v = w := Option.some.inj hw
  omega

/-! ## Claims C1 and C2: the manual conversions -/

/-- C1 (as stated, refuted): on the 1×1 frame holding the pixel (B, G, R) =
(0, 255, 0) `manualBGR2Gray` stores 149, whereas the weighted sum 149.685
rounded to the nearest integer is 150. -/
theorem manualBGR2Gray_not_rounded :
    manualBGR2Gray ⟨1, 1, 3, [[0, 255, 0]]⟩ = some ⟨1, 1, 1, [[149]]⟩ ∧
      (⟨1, 1, 1, [[149]]⟩ : Mat).at 0 0 0 = some 149 ∧
      lumaExact 0 255 0 = 149685 / 1000 ∧ lumaRounded 0 255 0 = 150 := by
  refine ⟨by decide!, by decide, by decide!, by decide!⟩

/-- C1 (amended): for every non-empty 3-channel 8-bit frame, `manualBGR2Gray`
is defined and stores at every pixel (B, G, R) the weighted sum
(114·B + 587·G + 299·R) / 1000 rounded down: the stored value is the integer
quotient whenever 1000 does not divide 114·B + 587·G + 299·R, and is the
quotient or the quotient minus one otherwise. -/
theorem manualBGR2Gray_truncates (bgr : Mat) (hwf : bgr.WellFormed)
    (hne : bgr.empty = false) (h3 : bgr.channels = 3) :
    ∃ gray : Mat, manualBGR2Gray bgr = some gray ∧
      ∀ y x, y < bgr.rows → x < bgr.cols →
        ∃ (B G R p : ℕ), bgr.at y x 0 = some B ∧ bgr.at y x 1 = some G ∧
          bgr.at y x 2 = some R ∧ gray.at y x 0 = some p ∧
          ((114 * B + 587 * G + 299 * R) % 1000 ≠ 0 →
            p = (114 * B + 587 * G + 299 * R) / 1000) ∧
          (p = (114 * B + 587 * G + 299 * R) / 1000 ∨
            p + 1 = (114 * B + 587 * G + 299 * R) / 1000) := by
  obtain ⟨gray, hg, _, _, _, _, _, hpix⟩ := manualBGR2Gray_pixels bgr hwf hne h3
  refine ⟨gray, hg, ?_⟩
  intro y x hy hx
  obtain ⟨B, G, R, p, hB, hG, hR, hB2, hG2, hR2, hp, hat⟩ := hpix y x hy hx
  obtain ⟨p2, hp2, _, hA, hB3⟩ := grayPixel_floor hB2 hG2 hR2
  have hpp : p2 = p := by rw [hp] at hp2; exact (Option.some.inj hp2).symm
  subst hpp
  exact ⟨B, G, R, p2, hB, hG, hR, hat, hA, hB3⟩

/-- Witness of `manualBGR2Gray_truncates` on a 1×2 frame. -/
theorem manualBGR2Gray_truncates_witness :
    (⟨1, 2, 3, [[0, 255, 0, 10, 20, 30]]⟩ : Mat).WellFormed ∧
      (⟨1, 2, 3, [[0, 255, 0, 10, 20, 30]]⟩ : Mat).empty = false ∧
      (⟨1, 2, 3, [[0, 255, 0, 10, 20, 30]]⟩ : Mat).channels = 3 ∧
      ∃ gray : Mat, manualBGR2Gray ⟨1, 2, 3, [[0, 255, 0, 10, 20, 30]]⟩ = some gray ∧
        ∀ y x, y < 1 → x < 2 →
          ∃ (B G R p : ℕ), (⟨1, 2, 3, [[0, 255, 0, 10, 20, 30]]⟩ : Mat).at y x 0 = some B ∧
            (⟨1, 2, 3, [[0, 255, 0, 10, 20, 30]]⟩ : Mat).at y x 1 = some G ∧
            (⟨1, 2, 3, [[0, 255, 0, 10, 20, 30]]⟩ : Mat).at y x 2 = some R ∧
            gray.at y x 0 = some p ∧
            ((114 * B + 587 * G + 299 * R) % 1000 ≠ 0 →
              p = (114 * B + 587 * G + 299 * R) / 1000) ∧
            (p = (114 * B + 587 * G + 299 * R) / 1000 ∨
              p + 1 = (114 * B + 587 * G + 299 * R) / 1000) :=
  ⟨by decide, by decide, by decide,
    manualBGR2Gray_truncates ⟨1, 2, 3, [[0, 255, 0, 10, 20, 30]]⟩ (by decide) (by decide)
      (by decide)⟩

/-- C2: for every non-empty 3-channel 8-bit frame, `manualBGR2HSV` returns a
3-channel frame and `manualBGR2Gray` a 1-channel frame, both with the rows and
columns of the input and with byte samples, and every pixel of the HSV result
has hue in [0,179] and saturation and value in [0,255]. -/
theorem conversions_shape_and_range (bgr : Mat) (hwf : bgr.WellFormed)
    (hne : bgr.empty = false) (h3 : bgr.channels = 3) :
    ∃ hsv gray : Mat, manualBGR2HSV bgr = some hsv ∧ manualBGR2Gray bgr = some gray ∧
      hsv.rows = bgr.rows ∧ hsv.cols = bgr.cols ∧ hsv.channels = 3 ∧ hsv.WellFormed ∧
      gray.rows = bgr.rows ∧ gray.cols = bgr.cols ∧ gray.channels = 1 ∧ gray.WellFormed ∧
      ∀ y x, y < bgr.rows → x < bgr.cols →
        ∃ (h s v : ℕ), hsv.at y x 0 = some h ∧ hsv.at y x 1 = some s ∧
          hsv.at y x 2 = some v ∧ h ≤ 179 ∧ s ≤ 255 ∧ v ≤ 255 := by
  obtain ⟨gray, hg, gr, gc, gch, glen, grow, gpix⟩ := manualBGR2Gray_pixels bgr hwf hne h3
  obtain ⟨hsv, hh, hr, hc, hch, hlen, hrow, hpix⟩ := manualBGR2HSV_pixels bgr hwf hne h3
  have hrange : ∀ y x, y < bgr.rows → x < bgr.cols →
      ∃ (h s v : ℕ), hsv.at y x 0 = some h ∧ hsv.at y x 1 = some s ∧
        hsv.at y x 2 = some v ∧ h ≤ 179 ∧ s ≤ 255 ∧ v ≤ 255 := by
    intro y x hy hx
    obtain ⟨B, G, R, h, s, v, _, _, _, _, _, _, hp, h0, h1, h2⟩ := hpix y x hy hx
    obtain ⟨h', s', v', hp', b1, b2, b3⟩ := hsvPixel_range B G R
    rw [hp] at hp'
    have e := Option.some.inj hp'
    have e1 : h = h' := congrArg Prod.fst e
    have e2 : s = s' := congrArg (fun p => p.2.1) e
    have e3 : v = v' := congrArg (fun p => p.2.2) e
    exact ⟨h, s, v, h0, h1, h2, by omega, by omega, by omega⟩
  refine ⟨hsv, gray, hh, hg, hr, hc, hch, ?_, gr, gc, gch, ?_, hrange⟩
  · apply Mat.wellFormed_of_at
    · omega
    · rw [hlen, hr]
    · intro row hmem; rw [hrow row hmem, hc, hch]
    · intro y x c hy hx hcc
      rw [hr] at hy; rw [hc] at hx; rw [hch] at hcc
      obtain ⟨h, s, v, h0, h1, h2, b1, b2, b3⟩ := hrange y x hy hx
      have hc3 : c = 0 ∨ c = 1 ∨ c = 2 := by omega
      rcases hc3 with rfl | rfl | rfl
      · exact ⟨h, h0, by omega⟩
      · exact ⟨s, h1, by omega⟩
      · exact ⟨v, h2, by omega⟩
  · apply Mat.wellFormed_of_at
    · omega
    · rw [glen, gr]
    · intro row hmem; rw [grow row hmem, gc, gch]; omega
    · intro y x c hy hx hcc
      rw [gr] at hy; rw [gc] at hx; rw [gch] at hcc
      obtain ⟨B, G, R, p, _, _, _, hB2, hG2, hR2, hp, hat⟩ := gpix y x hy hx
      obtain ⟨p2, hp2, hle, _⟩ := grayPixel_floor hB2 hG2 hR2
      have hpp : p2 = p := by rw [hp] at hp2; exact (Option.some.inj hp2).symm
      have hc0 : c = 0 := by omega
      subst hc0
      exact ⟨p, hat, by omega⟩

/-- Witness of `conversions_shape_and_range` on a 1×2 frame. -/
theorem conversions_shape_and_range_witness :
    (⟨1, 2, 3, [[0, 255, 0, 10, 20, 30]]⟩ : Mat).WellFormed ∧
      (⟨1, 2, 3, [[0, 255, 0, 10, 20, 30]]⟩ : Mat).empty = false ∧
      (⟨1, 2, 3, [[0, 255, 0, 10, 20, 30]]⟩ : Mat).channels = 3 ∧
      ∃ hsv gray : Mat, manualBGR2HSV ⟨1, 2, 3, [[0, 255, 0, 10, 20, 30]]⟩ = some hsv ∧
        manualBGR2Gray ⟨1, 2, 3, [[0, 255, 0, 10, 20, 30]]⟩ = some gray ∧
        hsv.rows = 1 ∧ hsv.cols = 2 ∧ hsv.channels = 3 ∧ hsv.WellFormed ∧
        gray.rows = 1 ∧ gray.cols = 2 ∧ gray.channels = 1 ∧ gray.WellFormed ∧
        ∀ y x, y < 1 → x < 2 →
          ∃ (h s v : ℕ), hsv.at y x 0 = some h ∧ hsv.at y x 1 = some s ∧
            hsv.at y x 2 = some v ∧ h ≤ 179 ∧ s ≤ 255 ∧ v ≤ 255 :=
  ⟨by decide, by decide, by decide,
    conversions_shape_and_range ⟨1, 2, 3, [[0, 255, 0, 10, 20, 30]]⟩ (by decide) (by decide)
      (by decide)⟩

/-! ## Facts about `compareMSE` -/

theorem foldLoop_succ {σ : Type} (step : ℕ → σ → Option σ) (init : σ) (n : ℕ) :
    foldLoop step init (n + 1) = (foldLoop step init n).bind (step n) := rfl

theorem sqDiff_cast (a b : ℕ) : ((a : ℚ) - (b : ℚ)) * ((a : ℚ) - (b : ℚ)) = ((sqDiff a b : ℕ) : ℚ) := by
  unfold sqDiff
  rcases Nat.le_total a b with h | h
  · have h1 : a - b = 0 := Nat.sub_eq_zero_of_le h
    rw [h1, Nat.zero_add]
    push_cast [Nat.cast_sub h]
    ring
  · have h1 : b - a = 0 := Nat.sub_eq_zero_of_le h
    rw [h1, Nat.add_zero]
    push_cast [Nat.cast_sub h]
    ring

theorem sqDiff_le {a b : ℕ} (ha : a < 256) (hb : b < 256) : sqDiff a b ≤ 65025 := by
  unfold sqDiff
  have h : a - b + (b - a) ≤ 255 := by omega
  calc (a - b + (b - a)) ^ 2 ≤ 255 ^ 2 := Nat.pow_le_pow_left h 2
    _ = 65025 := by norm_num

theorem sqDiff_self (a : ℕ) : sqDiff a a = 0 := by
  unfold sqDiff; simp

/-- One step of the inner loop of `compareMSE` when the accumulated error is a
natural number and the new sum is exactly representable. -/
theorem mseStep_exact (p1 p2 : List ℕ) (x E T a b : ℕ) (ha : p1[x]? = some a)
    (hb : p2[x]? = some b) (hbound : E + sqDiff a b < 2 ^ 53) :
    mseStep p1 p2 x ((E : ℚ), T) = some (((E + sqDiff a b : ℕ) : ℚ), T + 1) := by
  unfold mseStep
  rw [ha, hb, Option.some_bind, Option.map_some']
  have h1 : fl64 (((a : ℚ) - (b : ℚ)) * ((a : ℚ) - (b : ℚ))) = ((sqDiff a b : ℕ) : ℚ) := by
    rw [sqDiff_cast]
    exact roundSig_natCast 53 _ (by omega)
  have h2 : fl64 ((E : ℚ) + ((sqDiff a b : ℕ) : ℚ)) = ((E + sqDiff a b : ℕ) : ℚ) := by
    rw [← Nat.cast_add]
    exact roundSig_natCast 53 _ hbound
  simp only [h1, h2]

theorem rowSumSq_succ (p1 p2 : List ℕ) (n : ℕ) :
    rowSumSq p1 p2 (n + 1) = rowSumSq p1 p2 n + sqDiff (p1.getD n 0) (p2.getD n 0) := by
  unfold rowSumSq; rw [Finset.sum_range_succ]

theorem rowSumSq_le (p1 p2 : List ℕ) (n : ℕ) (h1 : ∀ v ∈ p1, v < 256) (h2 : ∀ v ∈ p2, v < 256) :
    rowSumSq p1 p2 n ≤ n * 65025 := by
  have hget : ∀ (p : List ℕ) (i : ℕ), (∀ v ∈ p, v < 256) → p.getD i 0 < 256 := by
    intro p i hp
    rw [List.getD_eq_getElem?_getD]
    cases hq : p[i]? with
    | none => simp
    | some v =>
      simp only [Option.getD_some]
      exact hp v (List.getElem?_mem hq)
  induction n with
  | zero => simp [rowSumSq]
  | succ n ih =>
    rw [rowSumSq_succ]
    have := sqDiff_le (hget p1 n h1) (hget p2 n h2)
    omega

/-- The inner loop of `compareMSE` adds the squared differences of a row
exactly, as long as the sum stays below 2^53. -/
theorem mseRow_exact (p1 p2 : List ℕ) (n E T : ℕ) (hl1 : n ≤ p1.length) (hl2 : n ≤ p2.length)
    (h1 : ∀ v ∈ p1, v < 256) (h2 : ∀ v ∈ p2, v < 256) (hbound : E + n * 65025 < 2 ^ 53) :
    foldLoop (mseStep p1 p2) ((E : ℚ), T) n =
      some (((E + rowSumSq p1 p2 n : ℕ) : ℚ), T + n) := by
  induction n with
  | zero => simp [foldLoop, rowSumSq]
  | succ n ih =>
    have hn1 : n < p1.length := by omega
    have hn2 : n < p2.length := by omega
    rw [foldLoop_succ, ih (by omega) (by omega) (by omega), Option.some_bind]
    have ha : p1[n]? = some (p1.getD n 0) := by
      rw [List.getD_eq_getElem?_getD, List.getElem?_eq_getElem hn1]; rfl
    have hb : p2[n]? = some (p2.getD n 0) := by
      rw [List.getD_eq_getElem?_getD, List.getElem?_eq_getElem hn2]; rfl
    have hs := rowSumSq_le p1 p2 n h1 h2
    have hsq : sqDiff (p1.getD n 0) (p2.getD n 0) ≤ 65025 := by
      apply sqDiff_le
      · rw [List.getD_eq_getElem?_getD, List.getElem?_eq_getElem hn1]
        exact h1 _ (List.getElem_mem hn1)
      · rw [List.getD_eq_getElem?_getD, List.getElem?_eq_getElem hn2]
        exact h2 _ (List.getElem_mem hn2)
    rw [mseStep_exact p1 p2 n (E + rowSumSq p1 p2 n) (T + n) _ _ ha hb (by omega)]
    rw [rowSumSq_succ]
    congr 2
    · congr 1; omega

/-- The inner loop of `compareMSE` on two equal rows leaves the error at 0. -/
theorem mseRow_self (p : List ℕ) (n T : ℕ) (hl : n ≤ p.length) :
    foldLoop (mseStep p p) ((0 : ℚ), T) n = some ((0 : ℚ), T + n) := by
  induction n with
  | zero => simp [foldLoop]
  | succ n ih =>
    have hn : n < p.length := by omega
    rw [foldLoop_succ, ih (by omega), Option.some_bind]
    unfold mseStep
    rw [List.getElem?_eq_getElem hn, Option.some_bind, Option.map_some']
    have h2 : fl64 ((((p[n] : ℕ) : ℚ) - ((p[n] : ℕ) : ℚ)) *
        ((((p[n] : ℕ) : ℚ)) - ((p[n] : ℕ) : ℚ))) = 0 := by
      rw [sub_self, mul_zero]; exact roundSig_zero 53
    have h3 : fl64 ((0 : ℚ) + 0) = 0 := by rw [add_zero]; exact roundSig_zero 53
    simp only [h2, h3]
    rfl

theorem frameSumSq_succ (a b : Mat) (n : ℕ) :
    frameSumSq a b (n + 1) = frameSumSq a b n +
      rowSumSq (a.data.getD n []) (b.data.getD n []) (a.cols * a.channels) := by
  unfold frameSumSq; rw [Finset.sum_range_succ]

theorem Mat.WellFormed.getD_row {m : Mat} (hwf : m.WellFormed) {y : ℕ} (hy : y < m.rows) :
    m.ptr y = some (m.data.getD y []) ∧ (m.data.getD y []).length = m.cols * m.channels ∧
      ∀ v ∈ m.data.getD y [], v < 256 := by
  obtain ⟨_, hlen, hrows⟩ := hwf
  have hy2 : y < m.data.length := by omega
  have hg : m.data.getD y [] = m.data[y] := List.getD_eq_getElem _ _ hy2
  rw [hg]
  exact ⟨List.getElem?_eq_getElem hy2, (hrows _ (List.getElem_mem hy2)).1,
    (hrows _ (List.getElem_mem hy2)).2⟩

theorem frameSumSq_le (a b : Mat) (hwa : a.WellFormed) (hwb : b.WellFormed)
    (n : ℕ) (hn : n ≤ a.rows) (hr : a.rows = b.rows) :
    frameSumSq a b n ≤ n * (a.cols * a.channels) * 65025 := by
  induction n with
  | zero => simp [frameSumSq]
  | succ n ih =>
    rw [frameSumSq_succ]
    have h1 := rowSumSq_le (a.data.getD n []) (b.data.getD n []) (a.cols * a.channels)
      (hwa.getD_row (by omega)).2.2 (hwb.getD_row (by omega)).2.2
    have h2 := ih (by omega)
    have e : (n + 1) * (a.cols * a.channels) * 65025 =
        n * (a.cols * a.channels) * 65025 + (a.cols * a.channels) * 65025 := by ring
    omega

/-- The outer loop of `compareMSE` on two valid frames of one shape: the error
is the exact sum of squared differences while it stays below 2^53. -/
theorem mseLoop_exact (a b : Mat) (hwa : a.WellFormed) (hwb : b.WellFormed)
    (hr : a.rows = b.rows) (hc : a.cols = b.cols) (hch : a.channels = b.channels)
    (hbound : a.rows * (a.cols * a.channels) * 65025 < 2 ^ 53) (n : ℕ) (hn : n ≤ a.rows) :
    foldLoop (fun y acc =>
      (a.ptr y).bind (fun p1 => (b.ptr y).bind (fun p2 =>
        foldLoop (mseStep p1 p2) acc (a.cols * a.channels)))) ((0 : ℚ), 0) n =
      some (((frameSumSq a b n : ℕ) : ℚ), n * (a.cols * a.channels)) := by
  induction n with
  | zero => simp [foldLoop, frameSumSq]
  | succ n ih =>
    rw [foldLoop_succ, ih (by omega), Option.some_bind]
    obtain ⟨ha1, ha2, ha3⟩ := hwa.getD_row (y := n) (by omega)
    obtain ⟨hb1, hb2, hb3⟩ := hwb.getD_row (y := n) (by omega)
    rw [ha1, Option.some_bind, hb1, Option.some_bind]
    have hle := frameSumSq_le a b hwa hwb n (by omega) hr
    have hmul : (n + 1) * (a.cols * a.channels) * 65025 ≤
        a.rows * (a.cols * a.channels) * 65025 :=
      Nat.mul_le_mul_right _ (Nat.mul_le_mul_right _ hn)
    have e : (n + 1) * (a.cols * a.channels) * 65025 =
        n * (a.cols * a.channels) * 65025 + (a.cols * a.channels) * 65025 := by ring
    rw [mseRow_exact _ _ (a.cols * a.channels) (frameSumSq a b n) (n * (a.cols * a.channels))
      (by omega) (by rw [hb2, hc, hch]) ha3 hb3 (by omega)]
    rw [frameSumSq_succ]
    congr 2
    ring

/-- The outer loop of `compareMSE` on a valid frame compared with itself. -/
theorem mseLoop_self (a : Mat) (hwa : a.WellFormed) (n : ℕ) (hn : n ≤ a.rows) :
    foldLoop (fun y acc =>
      (a.ptr y).bind (fun p1 => (a.ptr y).bind (fun p2 =>
        foldLoop (mseStep p1 p2) acc (a.cols * a.channels)))) ((0 : ℚ), 0) n =
      some ((0 : ℚ), n * (a.cols * a.channels)) := by
  induction n with
  | zero => simp [foldLoop]
  | succ n ih =>
    rw [foldLoop_succ, ih (by omega), Option.some_bind]
    obtain ⟨ha1, ha2, _⟩ := hwa.getD_row (y := n) (by omega)
    rw [ha1, Option.some_bind, Option.some_bind]
    rw [mseRow_self _ (a.cols * a.channels) (n * (a.cols * a.channels)) (by omega)]
    congr 2
    ring

/-- A sum over the flat index of a row is the sum over columns and channels. -/
theorem sum_range_mul_flat (g : ℕ → ℕ) (n k : ℕ) :
    Finset.sum (Finset.range (n * k)) g =
      Finset.sum (Finset.range n) (fun x => Finset.sum (Finset.range k) (fun c => g (x * k + c))) := by
  induction n with
  | zero => simp
  | succ n ih =>
    rw [Finset.sum_range_succ, ← ih, Nat.succ_mul, Finset.sum_range_add]

theorem Mat.WellFormed.sample_eq {m : Mat} (hwf : m.WellFormed) {y : ℕ} (hy : y < m.rows)
    (x c : ℕ) : (m.at y x c).getD 0 = (m.data.getD y []).getD (x * m.channels + c) 0 := by
  obtain ⟨row, hrow, _, _⟩ := hwf.row_get hy
  have hg : m.data.getD y [] = row := by
    rw [List.getD_eq_getElem?_getD, hrow]; rfl
  rw [hg]
  unfold Mat.at
  rw [hrow, Option.some_bind]
  exact (List.getD_eq_getElem?_getD row _ 0).symm

/-- The spec-level sum of squared differences is the natural number that the
loops of `compareMSE` accumulate. -/
theorem sumSqDiff_eq_frameSumSq (a b : Mat) (hwa : a.WellFormed) (hwb : b.WellFormed)
    (hr : a.rows = b.rows) (hch : a.channels = b.channels) :
    sumSqDiff a b = ((frameSumSq a b a.rows : ℕ) : ℚ) := by
  unfold sumSqDiff frameSumSq
  rw [Nat.cast_sum]
  apply Finset.sum_congr rfl
  intro y hy
  have hy1 : y < a.rows := Finset.mem_range.mp hy
  unfold rowSumSq
  rw [sum_range_mul_flat, Nat.cast_sum]
  apply Finset.sum_congr rfl
  intro x _
  rw [Nat.cast_sum]
  apply Finset.sum_congr rfl
  intro c _
  rw [hwa.sample_eq hy1, hwb.sample_eq (by omega), ← hch, pow_two, sqDiff_cast]

theorem Mat.type_eq_iff {a b : Mat} (ha : 1 ≤ a.channels) (hb : 1 ≤ b.channels) :
    a.type = b.type ↔ a.channels = b.channels := by
  unfold Mat.type; omega

/-! ## Claims C5 and C6: the mean squared error -/

/-- C5: `compareMSE` returns the sentinel -1 whenever one of the frames is empty,
or their sizes differ, or their types (channel counts) differ. -/
theorem compareMSE_sentinel (a b : Mat)
    (h : a.empty = true ∨ b.empty = true ∨ a.size ≠ b.size ∨ a.type ≠ b.type) :
    compareMSE a b = some (-1) := by
  unfold compareMSE
  by_cases h1 : (a.empty || b.empty) = true
  · rw [if_pos h1]
  · rw [if_neg h1]
    have h2 : (a.size != b.size || a.type != b.type) = true := by
      simp only [Bool.or_eq_true, not_or, Bool.not_eq_true] at h1
      rcases h with h | h | h | h
      · rw [h1.1] at h; exact absurd h (by decide)
      · rw [h1.2] at h; exact absurd h (by decide)
      · simp [h]
      · simp [h]
    rw [if_pos h2]

/-- Witness of `compareMSE_sentinel`: two non-empty frames of different sizes. -/
theorem compareMSE_sentinel_witness :
    (⟨1, 1, 1, [[5]]⟩ : Mat).empty = false ∧ (⟨1, 2, 1, [[5, 6]]⟩ : Mat).empty = false ∧
      (⟨1, 1, 1, [[5]]⟩ : Mat).size ≠ (⟨1, 2, 1, [[5, 6]]⟩ : Mat).size ∧
      compareMSE ⟨1, 1, 1, [[5]]⟩ ⟨1, 2, 1, [[5, 6]]⟩ = some (-1) :=
  ⟨by decide, by decide, by decide,
    compareMSE_sentinel ⟨1, 1, 1, [[5]]⟩ ⟨1, 2, 1, [[5, 6]]⟩ (Or.inr (Or.inr (Or.inl (by decide))))⟩

/-- C6: for every non-empty 8-bit frame `a`, `compareMSE a a` is exactly 0, and
for a valid frame `b` of the same shape the result is the sum of the squared
per-sample differences over all rows, columns and channels divided by
`rows * cols * channels`, as a `double` quotient (the exact quotient rounded
once), for frames small enough that the sum is exact in a `double`. -/
theorem compareMSE_mean (a : Mat) (hwa : a.WellFormed) (hne : a.empty = false) :
    compareMSE a a = some 0 ∧
      ∀ b : Mat, b.WellFormed → a.size = b.size → a.type = b.type →
        a.rows * a.cols * a.channels * 65025 < 2 ^ 53 →
        compareMSE a b =
          some (fl64 (sumSqDiff a b / ((a.rows * a.cols * a.channels : ℕ) : ℚ))) ∧
        |fl64 (sumSqDiff a b / ((a.rows * a.cols * a.channels : ℕ) : ℚ)) -
            sumSqDiff a b / ((a.rows * a.cols * a.channels : ℕ) : ℚ)| ≤
          sumSqDiff a b / ((a.rows * a.cols * a.channels : ℕ) : ℚ) * (1 / 2 ^ 53) := by
  have hrc : 0 < a.rows ∧ 0 < a.cols := by
    unfold Mat.empty at hne
    simp only [Bool.or_eq_false_iff, beq_eq_false_iff_ne, ne_eq] at hne
    omega
  have hch : 0 < a.channels := hwa.1
  have hN : 0 < a.rows * (a.cols * a.channels) :=
    Nat.mul_pos hrc.1 (Nat.mul_pos hrc.2 hch)
  constructor
  · unfold compareMSE
    have h1 : (a.empty || a.empty) = false := by rw [hne]; rfl
    have h2 : (a.size != a.size || a.type != a.type) = false := by simp
    rw [h1, h2, if_neg (by decide), if_neg (by decide), mseLoop_self a hwa a.rows (le_refl _),
      Option.map_some']
    rw [if_pos (show (0, a.rows * (a.cols * a.channels)).2 > 0 from hN)]
    show some (fl64 ((0 : ℚ) / _)) = some 0
    rw [zero_div]
    exact congrArg some (roundSig_zero 53)
  · intro b hwb hsize htype hbound
    have hc2 : a.cols = b.cols := congrArg Prod.fst hsize
    have hr2 : a.rows = b.rows := congrArg Prod.snd hsize
    have hch2 : a.channels = b.channels := (Mat.type_eq_iff hwa.1 hwb.1).mp htype
    have hbe : b.empty = false := by
      unfold Mat.empty at hne ⊢; rw [← hc2, ← hr2]; exact hne
    have hb2 : a.rows * (a.cols * a.channels) * 65025 < 2 ^ 53 := by
      rw [← Nat.mul_assoc]; exact hbound
    have hNlt : a.rows * (a.cols * a.channels) < 2 ^ 53 := by omega
    have hNeq : a.rows * a.cols * a.channels = a.rows * (a.cols * a.channels) :=
      Nat.mul_assoc _ _ _
    have hS : 0 ≤ sumSqDiff a b / ((a.rows * a.cols * a.channels : ℕ) : ℚ) := by
      rw [sumSqDiff_eq_frameSumSq a b hwa hwb hr2 hch2]
      positivity
    constructor
    · unfold compareMSE
      have h1 : (a.empty || b.empty) = false := by rw [hne, hbe]; rfl
      have h2 : (a.size != b.size || a.type != b.type) = false := by simp [hsize, htype]
      rw [h1, h2, if_neg (by decide), if_neg (by decide),
        mseLoop_exact a b hwa hwb hr2 hc2 hch2 hb2 a.rows (le_refl _), Option.map_some']
      rw [if_pos (show (((frameSumSq a b a.rows : ℕ) : ℚ),
        a.rows * (a.cols * a.channels)).2 > 0 from hN)]
      show some (fl64 (((frameSumSq a b a.rows : ℕ) : ℚ) /
        fl64 ((a.rows * (a.cols * a.channels) : ℕ) : ℚ))) = _
      have h3 : fl64 ((a.rows * (a.cols * a.channels) : ℕ) : ℚ) =
          ((a.rows * (a.cols * a.channels) : ℕ) : ℚ) := roundSig_natCast 53 _ hNlt
      rw [h3, sumSqDiff_eq_frameSumSq a b hwa hwb hr2 hch2, hNeq]
    · have h := roundSig_abs_sub_le 53 (sumSqDiff a b / ((a.rows * a.cols * a.channels : ℕ) : ℚ))
      rw [abs_of_nonneg hS] at h
      have e : (2 : ℚ) ^ (-((53 : ℕ) : ℤ)) = 1 / 2 ^ 53 := by
        rw [zpow_neg, zpow_natCast]; norm_num
      rw [e] at h
      exact h

/-- Witness of `compareMSE_mean` on two 1×2 three-channel frames that differ by
2 in one sample: the sum of squares is 4 and the result is the `double`
nearest to 4/6. -/
theorem compareMSE_mean_witness :
    (⟨1, 2, 3, [[0, 255, 0, 10, 20, 30]]⟩ : Mat).WellFormed ∧
      (⟨1, 2, 3, [[0, 255, 0, 10, 20, 30]]⟩ : Mat).empty = false ∧
      compareMSE ⟨1, 2, 3, [[0, 255, 0, 10, 20, 30]]⟩ ⟨1, 2, 3, [[0, 255, 0, 10, 20, 30]]⟩ =
        some 0 ∧
      compareMSE ⟨1, 2, 3, [[0, 255, 0, 10, 20, 30]]⟩ ⟨1, 2, 3, [[0, 255, 0, 10, 20, 32]]⟩ =
        some (fl64 (sumSqDiff ⟨1, 2, 3, [[0, 255, 0, 10, 20, 30]]⟩
          ⟨1, 2, 3, [[0, 255, 0, 10, 20, 32]]⟩ / ((1 * 2 * 3 : ℕ) : ℚ))) ∧
      sumSqDiff ⟨1, 2, 3, [[0, 255, 0, 10, 20, 30]]⟩ ⟨1, 2, 3, [[0, 255, 0, 10, 20, 32]]⟩ = 4 :=
  ⟨by decide, by decide,
    (compareMSE_mean ⟨1, 2, 3, [[0, 255, 0, 10, 20, 30]]⟩ (by decide) (by decide)).1,
    ((compareMSE_mean ⟨1, 2, 3, [[0, 255, 0, 10, 20, 30]]⟩ (by decide) (by decide)).2
      ⟨1, 2, 3, [[0, 255, 0, 10, 20, 32]]⟩ (by decide) (by decide) (by decide)
      (by norm_num)).1,
    by decide!⟩

/-! ## Facts about `findDominantHues` -/

theorem mem_peakLoop (hist : List ℚ) (n : ℕ) (p : HuePeak) :
    p ∈ peakLoop hist n ↔
      1 ≤ p.1 ∧ p.1 ≤ n ∧ isPeak hist p.1 ∧ p.2 = hist.getD p.1 0 := by
  induction n with
  | zero =>
    simp only [peakLoop, List.not_mem_nil, false_iff]
    rintro ⟨h1, h2, _⟩
    omega
  | succ n ih =>
    unfold peakLoop
    split_ifs with h
    · rw [List.mem_append, ih, List.mem_singleton]
      constructor
      · rintro (⟨h1, h2, h3, h4⟩ | rfl)
        · exact ⟨h1, by omega, h3, h4⟩
        · exact ⟨by simp, le_refl _, h, rfl⟩
      · rintro ⟨h1, h2, h3, h4⟩
        rcases Nat.lt_or_ge p.1 (n + 1) with hlt | hge
        · exact Or.inl ⟨h1, by omega, h3, h4⟩
        · right
          have e : p.1 = n + 1 := by omega
          exact Prod.ext e (by rw [h4, e])
    · rw [ih]
      constructor
      · rintro ⟨h1, h2, h3, h4⟩
        exact ⟨h1, by omega, h3, h4⟩
      · rintro ⟨h1, h2, h3, h4⟩
        refine ⟨h1, ?_, h3, h4⟩
        rcases Nat.lt_or_ge p.1 (n + 1) with hlt | hge
        · omega
        · have e : p.1 = n + 1 := by omega
          rw [e] at h3
          exact absurd h3 h

theorem peakLoop_pairwise (hist : List ℚ) (n : ℕ) :
    (peakLoop hist n).Pairwise (fun a b => a.1 < b.1) := by
  induction n with
  | zero => simp [peakLoop]
  | succ n ih =>
    unfold peakLoop
    split_ifs with h
    · rw [List.pairwise_append]
      refine ⟨ih, List.pairwise_singleton _ _, ?_⟩
      intro a ha b hb
      rw [List.mem_singleton] at hb
      subst hb
      have := ((mem_peakLoop hist n a).mp ha).2.1
      show a.1 < n + 1
      omega
    · exact ih

theorem peakLoop_length (hist : List ℚ) (n : ℕ) :
    (peakLoop hist n).length =
      ((Finset.range (n + 1)).filter (fun i => 1 ≤ i ∧ isPeak hist i)).card := by
  induction n with
  | zero =>
    simp only [peakLoop, List.length_nil, zero_add, Finset.range_one]
    rw [Finset.filter_singleton, if_neg (by simp)]
    rfl
  | succ n ih =>
    rw [Finset.range_succ, Finset.filter_insert]
    unfold peakLoop
    split_ifs with h h2 h2
    · rw [List.length_append, ih, List.length_singleton,
        Finset.card_insert_of_not_mem (by simp)]
    · exact absurd ⟨by omega, h⟩ h2
    · exact absurd h2.2 h
    · exact ih

theorem peakLoop_length_180 (hist : List ℚ) : (peakLoop hist 178).length = peakCount hist := by
  rw [peakLoop_length]
  unfold peakCount
  congr 1
  ext i
  simp only [Finset.mem_filter, Finset.mem_range]
  constructor
  · rintro ⟨h1, h2, h3⟩; exact ⟨by omega, h2, by omega, h3⟩
  · rintro ⟨h1, h2, h3, h4⟩; exact ⟨by omega, h2, h4⟩

/-- For a non-negative `top_n` in the range of `int`, `findDominantHues` returns
the first `top_n` elements of the sorted peaks. -/
theorem findDominantHues_eq_take (S : StdSort HuePeak peakGreater) (hist : List ℚ) (topN : ℕ)
    (hN : topN < 2 ^ 31) :
    findDominantHues S hist (topN : ℤ) =
      (S.run (peakLoop hist (hist.length - 2))).take topN := by
  unfold findDominantHues
  have hmod : (topN : ℤ) % 2 ^ 64 = (topN : ℤ) := by
    apply Int.emod_eq_of_lt (by positivity)
    have : (topN : ℤ) < 2 ^ 31 := by exact_mod_cast hN
    omega
  simp only [hmod, Int.toNat_ofNat]
  split_ifs with h
  · rfl
  · have hle : (S.run (peakLoop hist (hist.length - 2))).length ≤ topN := by
      have : ¬ (topN : ℤ) < ((S.run (peakLoop hist (hist.length - 2))).length : ℤ) := h
      omega
    exact (List.take_of_length_le hle).symm

theorem StdSort.mem_run {α : Type} {comp : α → α → Bool} (S : StdSort α comp) (l : List α)
    (a : α) : a ∈ S.run l ↔ a ∈ l := (S.perm l).mem_iff

theorem StdSort.length_run {α : Type} {comp : α → α → Bool} (S : StdSort α comp) (l : List α) :
    (S.run l).length = l.length := (S.perm l).length_eq

/-! ## Claims C3 and C4: dominant hues -/

/-- C3: for every 180-bucket histogram, every conforming `std::sort` and every
`top_n` ≥ 0, `findDominantHues` returns exactly min(top_n, k) distinct entries,
k being the number of buckets 1 ≤ i ≤ 178 that strictly exceed both neighbours
and 15; every returned entry (i, m) is such a bucket with m its count, so
buckets 0 and 179 are never returned; and the histogram whose only non-zero
bucket is bucket 50 = 100 yields exactly the peak (50, 100). -/
theorem findDominantHues_peaks (S : StdSort HuePeak peakGreater) (hist : List ℚ)
    (hlen : hist.length = 180) (topN : ℕ) (hN : topN < 2 ^ 31) :
    (findDominantHues S hist (topN : ℤ)).length = min topN (peakCount hist) ∧
      (findDominantHues S hist (topN : ℤ)).Nodup ∧
      ((findDominantHues S hist (topN : ℤ)).map Prod.fst).Nodup ∧
      (∀ p ∈ findDominantHues S hist (topN : ℤ),
        1 ≤ p.1 ∧ p.1 ≤ 178 ∧ isPeak hist p.1 ∧ p.2 = hist.getD p.1 0) ∧
      (∀ p ∈ findDominantHues S hist (topN : ℤ), p.1 ≠ 0 ∧ p.1 ≠ 179) ∧
      (1 ≤ topN → findDominantHues S (histOf [(50, 100)]) (topN : ℤ) = [(50, 100)]) := by
  have hmem : ∀ p ∈ findDominantHues S hist (topN : ℤ),
      1 ≤ p.1 ∧ p.1 ≤ 178 ∧ isPeak hist p.1 ∧ p.2 = hist.getD p.1 0 := by
    intro p hp
    rw [findDominantHues_eq_take S hist topN hN, hlen] at hp
    have h1 := (S.mem_run _ p).mp (List.mem_of_mem_take hp)
    exact (mem_peakLoop hist 178 p).mp h1
  have hfst : ((S.run (peakLoop hist 178)).map Prod.fst).Nodup := by
    have hp : ((S.run (peakLoop hist 178)).map Prod.fst).Perm
        ((peakLoop hist 178).map Prod.fst) := (S.perm _).map _
    rw [hp.nodup_iff]
    have hpw := peakLoop_pairwise hist 178
    have : ((peakLoop hist 178).map Prod.fst).Pairwise (fun a b => a < b) :=
      (List.pairwise_map).mpr hpw
    exact this.imp (fun h => Nat.ne_of_lt h)
  have hfst2 : ((findDominantHues S hist (topN : ℤ)).map Prod.fst).Nodup := by
    rw [findDominantHues_eq_take S hist topN hN, hlen, List.map_take]
    exact hfst.sublist (List.take_sublist _ _)
  refine ⟨?_, hfst2.of_map _, hfst2, hmem, ?_, ?_⟩
  · rw [findDominantHues_eq_take S hist topN hN, hlen, List.length_take, S.length_run,
      peakLoop_length_180]
  · intro p hp
    obtain ⟨h1, h2, _⟩ := hmem p hp
    omega
  · intro h1
    have hl : (histOf [(50, 100)]).length = 180 := by simp [histOf]
    rw [findDominantHues_eq_take S _ topN hN, hl]
    have hpk : peakLoop (histOf [(50, 100)]) 178 = [(50, 100)] := by decide!
    rw [hpk]
    have hs : S.run [(50, 100)] = [(50, 100)] := List.perm_singleton.mp (S.perm _)
    rw [hs]
    exact List.take_of_length_le (by simpa using h1)

/-- Witness of `findDominantHues_peaks`: the default `top_n = 3` on a histogram
with peaks at buckets 20 and 50 and large boundary buckets. -/
theorem findDominantHues_peaks_witness :
    (histOf [(0, 500), (20, 16), (50, 100), (179, 300)]).length = 180 ∧
      (findDominantHues stableStdSort (histOf [(0, 500), (20, 16), (50, 100), (179, 300)])
        ((3 : ℕ) : ℤ)).length =
        min 3 (peakCount (histOf [(0, 500), (20, 16), (50, 100), (179, 300)])) ∧
      findDominantHues stableStdSort (histOf [(0, 500), (20, 16), (50, 100), (179, 300)])
        ((3 : ℕ) : ℤ) = [(50, 100), (20, 16)] :=
  ⟨by simp [histOf],
    (findDominantHues_peaks stableStdSort (histOf [(0, 500), (20, 16), (50, 100), (179, 300)])
      (by simp [histOf]) 3 (by norm_num)).1,
    by decide!⟩

/-- The result of `findDominantHues` with the `std::sort` of GCC on the histogram
with 17 peaks of height 100 at the buckets 5, 15, …, 165; the heap-sort
fall-back of the library is not reached, so the result is the same for every
`heap`. -/
theorem findDominantHues_seventeen_peaks :
    ∀ heap : StdSort HuePeak peakGreater,
      std_sort peakGreater (peakLoop (histOf seventeenPeaks) 178) =
        some [(85, 100), (165, 100), (155, 100), (145, 100), (135, 100), (125, 100),
          (115, 100), (105, 100), (95, 100), (5, 100), (75, 100), (65, 100), (55, 100),
          (45, 100), (35, 100), (25, 100), (15, 100)] ∧
      findDominantHues (gnuStdSort heap) (histOf seventeenPeaks) 17 =
        [(85, 100), (165, 100), (155, 100), (145, 100), (135, 100), (125, 100),
          (115, 100), (105, 100), (95, 100), (5, 100), (75, 100), (65, 100), (55, 100),
          (45, 100), (35, 100), (25, 100), (15, 100)] ∧
      findDominantHues (gnuStdSort heap) (histOf seventeenPeaks) 3 =
        [(85, 100), (165, 100), (155, 100)] ∧
      isPeak (histOf seventeenPeaks) 5 ∧
      (histOf seventeenPeaks).getD 5 0 = 100 := by
  intro heap
  have hl : (histOf seventeenPeaks).length - 2 = 178 := by decide!
  have hp : peakLoop (histOf seventeenPeaks) 178 = seventeenPeaks := by decide!
  have hs : std_sort peakGreater seventeenPeaks =
      some [(85, 100), (165, 100), (155, 100), (145, 100), (135, 100), (125, 100),
        (115, 100), (105, 100), (95, 100), (5, 100), (75, 100), (65, 100), (55, 100),
        (45, 100), (35, 100), (25, 100), (15, 100)] := by decide!
  have hrun : (gnuStdSort heap).run seventeenPeaks =
      [(85, 100), (165, 100), (155, 100), (145, 100), (135, 100), (125, 100),
        (115, 100), (105, 100), (95, 100), (5, 100), (75, 100), (65, 100), (55, 100),
        (45, 100), (35, 100), (25, 100), (15, 100)] := by
    show (std_sort peakGreater seventeenPeaks).getD (heap.run seventeenPeaks) = _
    rw [hs, Option.getD_some]
  refine ⟨by rw [hp]; exact hs, ?_, ?_, by decide!, by decide!⟩
  · have h := findDominantHues_eq_take (gnuStdSort heap) (histOf seventeenPeaks) 17
      (by norm_num)
    rw [hl, hp, hrun] at h
    exact h
  · have h := findDominantHues_eq_take (gnuStdSort heap) (histOf seventeenPeaks) 3
      (by norm_num)
    rw [hl, hp, hrun] at h
    exact h

/-- C4 (as stated, refuted): on the histogram with 17 peaks of height 100 at the
buckets 5, 15, …, 165, `findDominantHues` with the `std::sort` of GCC returns
the peaks in the order 85, 165, 155, …, 95, 5, 75, …, 15 of their buckets, which
is not ascending, and for `top_n = 3` it returns the peaks of the buckets 85,
165 and 155: the peak (5, 100) is left out although it has the magnitude of the
returned peaks and a lower hue index. -/
theorem findDominantHues_ties_not_ascending :
    std_sort peakGreater (peakLoop (histOf seventeenPeaks) 178) =
        some [(85, 100), (165, 100), (155, 100), (145, 100), (135, 100), (125, 100),
          (115, 100), (105, 100), (95, 100), (5, 100), (75, 100), (65, 100), (55, 100),
          (45, 100), (35, 100), (25, 100), (15, 100)] ∧
      findDominantHues (gnuStdSort stableStdSort) (histOf seventeenPeaks) 17 =
        [(85, 100), (165, 100), (155, 100), (145, 100), (135, 100), (125, 100),
          (115, 100), (105, 100), (95, 100), (5, 100), (75, 100), (65, 100), (55, 100),
          (45, 100), (35, 100), (25, 100), (15, 100)] ∧
      findDominantHues (gnuStdSort stableStdSort) (histOf seventeenPeaks) 3 =
        [(85, 100), (165, 100), (155, 100)] ∧
      isPeak (histOf seventeenPeaks) 5 ∧
      (histOf seventeenPeaks).getD 5 0 = 100 :=
  findDominantHues_seventeen_peaks stableStdSort

/-- C4 (amended): for every histogram, every conforming `std::sort` and every
`top_n` ≥ 0, the list returned by `findDominantHues` is ordered by
non-increasing magnitude, and every peak left out by the truncation has a
magnitude not greater than that of every returned peak. -/
theorem findDominantHues_descending (S : StdSort HuePeak peakGreater) (hist : List ℚ)
    (topN : ℕ) (hN : topN < 2 ^ 31) :
    (findDominantHues S hist (topN : ℤ)).Pairwise (fun a b => b.2 ≤ a.2) ∧
      ∀ q ∈ peakLoop hist (hist.length - 2), q ∉ findDominantHues S hist (topN : ℤ) →
        ∀ r ∈ findDominantHues S hist (topN : ℤ), q.2 ≤ r.2 := by
  rw [findDominantHues_eq_take S hist topN hN]
  have hs : (S.run (peakLoop hist (hist.length - 2))).Pairwise (fun a b => b.2 ≤ a.2) := by
    refine (S.sorted _).imp ?_
    intro a b hab
    simpa [peakGreater] using hab
  refine ⟨hs.sublist (List.take_sublist _ _), ?_⟩
  intro q hq hnot r hr
  have hq2 : q ∈ S.run (peakLoop hist (hist.length - 2)) := (S.mem_run _ q).mpr hq
  rw [← List.take_append_drop topN (S.run (peakLoop hist (hist.length - 2)))] at hq2 hs
  rcases List.mem_append.mp hq2 with h | h
  · exact absurd h hnot
  · exact (List.pairwise_append.mp hs).2.2 r hr q h

/-- Witness of `findDominantHues_descending` for the default `top_n = 3`. -/
theorem findDominantHues_descending_witness :
    (findDominantHues stableStdSort (histOf [(20, 16), (50, 100), (100, 100), (150, 30)])
        ((3 : ℕ) : ℤ)).Pairwise (fun a b => b.2 ≤ a.2) ∧
      findDominantHues stableStdSort (histOf [(20, 16), (50, 100), (100, 100), (150, 30)])
        ((3 : ℕ) : ℤ) = [(50, 100), (100, 100), (150, 30)] :=
  ⟨(findDominantHues_descending stableStdSort
      (histOf [(20, 16), (50, 100), (100, 100), (150, 30)]) 3 (by norm_num)).1,
    by decide!⟩

/-! ## Facts about the segmentation -/

theorem getElem?_map_range {α : Type} (g : ℕ → α) (n i : ℕ) (hi : i < n) :
    ((List.range n).map g)[i]? = some (g i) := by
  rw [List.getElem?_map, List.getElem?_range hi]; rfl

/-- Reading a tabulated matrix inside its bounds. -/
theorem Mat.tabulate_at (src : Mat) (f : ℕ → ℕ → ℕ → ℕ) {y x c : ℕ} (hy : y < src.rows)
    (hx : x < src.cols) (hc : c < src.channels) :
    (src.tabulate f).at y x c = some (f y x c) := by
  have hi : x * src.channels + c < src.cols * src.channels := by
    calc x * src.channels + c < x * src.channels + src.channels := by omega
      _ = (x + 1) * src.channels := by ring
      _ ≤ src.cols * src.channels := Nat.mul_le_mul_right _ hx
  have hdiv : (x * src.channels + c) / src.channels = x := by
    rw [Nat.mul_comm, Nat.mul_add_div (by omega), Nat.div_eq_of_lt hc, Nat.add_zero]
  have hmod : (x * src.channels + c) % src.channels = c := by
    rw [Nat.mul_comm, Nat.mul_add_mod, Nat.mod_eq_of_lt hc]
  show (((List.range src.rows).map (fun y =>
      (List.range (src.cols * src.channels)).map (fun i =>
        f y (i / src.channels) (i % src.channels))))[y]?).bind
      (fun row => row[x * src.channels + c]?) = some (f y x c)
  rw [getElem?_map_range _ _ _ hy, Option.some_bind, getElem?_map_range _ _ _ hi, hdiv, hmod]

theorem foldl_max_binary (l : List ℕ) (hl : ∀ v ∈ l, v = 0 ∨ v = 255) (a : ℕ)
    (ha : a = 0 ∨ a = 255) : l.foldl max a = 0 ∨ l.foldl max a = 255 := by
  induction l generalizing a with
  | nil => exact ha
  | cons v t ih =>
    rw [List.foldl_cons]
    apply ih (fun w hw => hl w (List.mem_cons_of_mem _ hw))
    rcases ha with rfl | rfl <;> rcases hl v (List.mem_cons_self _ _) with rfl | rfl <;> simp

theorem foldl_min_binary (l : List ℕ) (hl : ∀ v ∈ l, v = 0 ∨ v = 255) (a : ℕ)
    (ha : a = 0 ∨ a = 255) : l.foldl min a = 0 ∨ l.foldl min a = 255 := by
  induction l generalizing a with
  | nil => exact ha
  | cons v t ih =>
    rw [List.foldl_cons]
    apply ih (fun w hw => hl w (List.mem_cons_of_mem _ hw))
    rcases ha with rfl | rfl <;> rcases hl v (List.mem_cons_self _ _) with rfl | rfl <;> simp

theorem neighbours_binary (src : Mat) (hb : src.Binary) (offs : List (ℤ × ℤ)) (y x c : ℕ) :
    ∀ v ∈ neighbours src offs y x c, v = 0 ∨ v = 255 := by
  intro v hv
  unfold neighbours at hv
  rw [List.mem_filterMap] at hv
  obtain ⟨d, _, hd⟩ := hv
  simp only at hd
  split_ifs at hd
  rw [← Option.some.inj hd]
  exact hb _ _ _

theorem Mat.tabulate_sample (src : Mat) (f : ℕ → ℕ → ℕ → ℕ) (y x c : ℕ) :
    (src.tabulate f).sample y x c = 0 ∨ ∃ a b d, (src.tabulate f).sample y x c = f a b d := by
  unfold Mat.sample Mat.at Mat.tabulate
  simp only
  rw [List.getElem?_map]
  cases (List.range src.rows)[y]? with
  | none => left; rfl
  | some y' =>
    simp only [Option.map_some', Option.some_bind]
    rw [List.getElem?_map]
    cases (List.range (src.cols * src.channels))[x * src.channels + c]? with
    | none => left; rfl
    | some i => right; exact ⟨_, _, _, rfl⟩

theorem Mat.tabulate_binary (src : Mat) (f : ℕ → ℕ → ℕ → ℕ)
    (hf : ∀ y x c, f y x c = 0 ∨ f y x c = 255) : (src.tabulate f).Binary := by
  intro y x c
  rcases Mat.tabulate_sample src f y x c with h | ⟨a, b, d, h⟩
  · exact Or.inl h
  · rw [h]; exact hf a b d

theorem dilate_binary (src : Mat) (hb : src.Binary) (k : List (List ℕ)) :
    (dilate src k).Binary :=
  Mat.tabulate_binary _ _ (fun y x c =>
    foldl_max_binary _ (neighbours_binary src hb _ y x c) 0 (Or.inl rfl))

theorem erode_binary (src : Mat) (hb : src.Binary) (k : List (List ℕ)) :
    (erode src k).Binary :=
  Mat.tabulate_binary _ _ (fun y x c =>
    foldl_min_binary _ (neighbours_binary src hb _ y x c) 255 (Or.inr rfl))

theorem morphologyEx_binary (src : Mat) (hb : src.Binary) (op : MorphOp) (k : List (List ℕ)) :
    (morphologyEx src op k).Binary := by
  cases op
  · exact erode_binary _ (dilate_binary _ hb k) k
  · exact dilate_binary _ (erode_binary _ hb k) k

theorem morphologyEx_shape (src : Mat) (op : MorphOp) (k : List (List ℕ)) :
    (morphologyEx src op k).rows = src.rows ∧ (morphologyEx src op k).cols = src.cols ∧
      (morphologyEx src op k).channels = src.channels := by
  cases op <;> exact ⟨rfl, rfl, rfl⟩

/-- Inside its bounds a morphological result has a sample, and it equals
`Mat.sample`. -/
theorem morphologyEx_at (src : Mat) (op : MorphOp) (k : List (List ℕ)) {y x c : ℕ}
    (hy : y < src.rows) (hx : x < src.cols) (hc : c < src.channels) :
    (morphologyEx src op k).at y x c = some ((morphologyEx src op k).sample y x c) := by
  have key : ∀ (m : Mat) (f : ℕ → ℕ → ℕ → ℕ), y < m.rows → x < m.cols → c < m.channels →
      (m.tabulate f).at y x c = some ((m.tabulate f).sample y x c) := by
    intro m f h1 h2 h3
    unfold Mat.sample
    rw [Mat.tabulate_at m f h1 h2 h3]; rfl
  cases op
  · exact key (dilate src k) _ hy hx hc
  · exact key (erode src k) _ hy hx hc

/-- The mask computed by `inRange` on an accepted source. -/
theorem inRange_some (src : Mat) (lo hi : Scalar) (hne : src.empty = false)
    (hch : src.channels ≤ 4) :
    inRange src lo hi = some ⟨src.rows, src.cols, 1,
      (List.range src.rows).map (fun y =>
        (List.range src.cols).map (fun x =>
          if pixelInRange src lo hi y x then 255 else 0))⟩ := by
  unfold inRange
  have h : (src.empty || decide (src.channels > 4)) = false := by
    rw [hne]; simp; omega
  rw [h]; rfl

theorem inRange_none (src : Mat) (lo hi : Scalar) (h : src.empty = true ∨ 4 < src.channels) :
    inRange src lo hi = none := by
  unfold inRange
  have h2 : (src.empty || decide (src.channels > 4)) = true := by
    rcases h with h | h
    · rw [h]; rfl
    · simp [h]
  rw [h2]; rfl

/-- Reading the mask of `inRange` inside its bounds. -/
theorem inRange_at (src : Mat) (lo hi : Scalar) (hne : src.empty = false)
    (hch : src.channels ≤ 4) {y x : ℕ} (hy : y < src.rows) (hx : x < src.cols) :
    ∃ M : Mat, inRange src lo hi = some M ∧ M.rows = src.rows ∧ M.cols = src.cols ∧
      M.channels = 1 ∧ M.Binary ∧
      M.at y x 0 = some (if pixelInRange src lo hi y x then 255 else 0) := by
  refine ⟨_, inRange_some src lo hi hne hch, rfl, rfl, rfl, ?_, ?_⟩
  · intro y x c
    unfold Mat.sample Mat.at
    simp only
    rw [List.getElem?_map]
    cases hy : (List.range src.rows)[y]? with
    | none => left; rfl
    | some y' =>
      simp only [Option.map_some', Option.some_bind]
      rw [List.getElem?_map]
      cases hi : (List.range src.cols)[x * 1 + c]? with
      | none => left; rfl
      | some i =>
        simp only [Option.map_some', Option.getD_some]
        split_ifs
        · right; rfl
        · left; rfl
  · unfold Mat.at
    simp only
    rw [getElem?_map_range _ _ _ hy, Option.some_bind, Nat.mul_one, Nat.add_zero,
      getElem?_map_range _ _ _ hx]

theorem Mat.empty_eq_false_iff (m : Mat) : m.empty = false ↔ 0 < m.rows ∧ 0 < m.cols := by
  unfold Mat.empty
  simp only [Bool.or_eq_false_iff, beq_eq_false_iff_ne, ne_eq]
  omega

/-- On an accepted source `segmentByColor` is the thresholded mask after closing
and opening. -/
theorem segmentByColor_eq (hsv : Mat) (cfg : ColorConfig) (hne : hsv.empty = false)
    (hch : hsv.channels ≤ 4) :
    ∃ M : Mat, inRange hsv cfg.lower_hsv cfg.upper_hsv = some M ∧ M.rows = hsv.rows ∧
      M.cols = hsv.cols ∧ M.channels = 1 ∧ M.Binary ∧
      segmentByColor hsv cfg =
        morphologyEx (morphologyEx M MorphOp.MORPH_CLOSE ellipse5) MorphOp.MORPH_OPEN
          ellipse5 := by
  obtain ⟨hr, hc⟩ := (Mat.empty_eq_false_iff hsv).mp hne
  obtain ⟨M, hM, h1, h2, h3, h4, _⟩ := inRange_at hsv cfg.lower_hsv cfg.upper_hsv hne hch hr hc
  refine ⟨M, hM, h1, h2, h3, h4, ?_⟩
  have hMne : M.empty = false := by
    rw [Mat.empty_eq_false_iff, h1, h2]; exact ⟨hr, hc⟩
  unfold segmentByColor
  rw [hne, hM]
  simp only [Bool.false_eq_true, if_false, hMne, Bool.not_false, if_true]

/-- A source that `inRange` rejects gives the empty matrix. -/
theorem segmentByColor_rejected (hsv : Mat) (cfg : ColorConfig)
    (h : hsv.empty = true ∨ 4 < hsv.channels) : segmentByColor hsv cfg = Mat.nil := by
  unfold segmentByColor
  by_cases he : hsv.empty = true
  · rw [he]; rfl
  · rw [inRange_none hsv _ _ h]
    simp

/-- The range test with equal bounds on a valid 3-channel frame holds exactly
for the pixels whose three samples are the bounds. -/
theorem pixelInRange_point (hsv : Mat) (h3 : hsv.channels = 3) (c : Scalar) (y x B G R : ℕ)
    (hB : hsv.at y x 0 = some B) (hG : hsv.at y x 1 = some G) (hR : hsv.at y x 2 = some R) :
    pixelInRange hsv c c y x = true ↔ ((B : ℤ) = c.v0 ∧ (G : ℤ) = c.v1 ∧ (R : ℤ) = c.v2) := by
  unfold pixelInRange
  rw [h3]
  have e : List.range 3 = [0, 1, 2] := rfl
  rw [e]
  simp only [List.all_cons, List.all_nil, Bool.and_true, Bool.and_eq_true, decide_eq_true_eq,
    Mat.sample, hB, hG, hR, Option.getD_some, Scalar.get]
  constructor
  · rintro ⟨⟨h1, h2⟩, ⟨h3, h4⟩, h5, h6⟩
    exact ⟨le_antisymm h2 h1, le_antisymm h4 h3, le_antisymm h6 h5⟩
  · rintro ⟨h1, h2, h3⟩
    rw [h1, h2, h3]
    exact ⟨⟨le_refl _, le_refl _⟩, ⟨le_refl _, le_refl _⟩, le_refl _, le_refl _⟩

/-! ## Claims C7 and C8: `segmentByColor` -/

/-- C7 (as stated, refuted): in the 7×7 frame `spotFrame` only the centre pixel
has the value (120, 200, 200) and every other pixel is (0, 0, 0), yet
`segmentByColor` with lower = upper = (120, 200, 200) returns the all-zero
mask: the opening erases the single pixel, so the mask is 0 at the centre. -/
theorem segmentByColor_spot_erased :
    spotFrame.WellFormed ∧ spotFrame.empty = false ∧ spotFrame.channels = 3 ∧
      spotFrame.at 3 3 0 = some 120 ∧ spotFrame.at 3 3 1 = some 200 ∧
      spotFrame.at 3 3 2 = some 200 ∧
      (∀ y, y < 7 → ∀ x, x < 7 → ¬(y = 3 ∧ x = 3) → spotFrame.at y x 0 = some 0) ∧
      spotConfig.lower_hsv = spotConfig.upper_hsv ∧
      segmentByColor spotFrame spotConfig = ⟨7, 7, 1, List.replicate 7 (List.replicate 7 0)⟩ ∧
      (segmentByColor spotFrame spotConfig).at 3 3 0 = some 0 := by
  refine ⟨by decide, by decide, by decide, by decide, by decide, by decide, by decide,
    by decide, by decide!, by decide!⟩

/-- C7 (amended): for a valid non-empty 3-channel frame in which exactly the
pixel (py, px) has the value c, thresholding with lower = upper = c yields the
mask that is 255 at (py, px) and 0 at every other pixel, and `segmentByColor`
returns that mask after the morphological closing and opening with the 5×5
ellipse. -/
theorem segmentByColor_single_pixel (hsv : Mat) (cfg : ColorConfig) (py px c0 c1 c2 : ℕ)
    (hwf : hsv.WellFormed) (h3 : hsv.channels = 3) (hpy : py < hsv.rows) (hpx : px < hsv.cols)
    (hp0 : hsv.at py px 0 = some c0) (hp1 : hsv.at py px 1 = some c1)
    (hp2 : hsv.at py px 2 = some c2)
    (hother : ∀ y x, y < hsv.rows → x < hsv.cols → ¬(y = py ∧ x = px) →
      ¬(hsv.at y x 0 = some c0 ∧ hsv.at y x 1 = some c1 ∧ hsv.at y x 2 = some c2))
    (hlo : cfg.lower_hsv = cfg.upper_hsv) (h0 : cfg.lower_hsv.v0 = c0)
    (h1 : cfg.lower_hsv.v1 = c1) (h2 : cfg.lower_hsv.v2 = c2) :
    ∃ M : Mat, inRange hsv cfg.lower_hsv cfg.upper_hsv = some M ∧
      M.rows = hsv.rows ∧ M.cols = hsv.cols ∧ M.channels = 1 ∧
      (∀ y x, y < hsv.rows → x < hsv.cols →
        M.at y x 0 = some (if y = py ∧ x = px then 255 else 0)) ∧
      segmentByColor hsv cfg =
        morphologyEx (morphologyEx M MorphOp.MORPH_CLOSE ellipse5) MorphOp.MORPH_OPEN
          ellipse5 := by
  have hne : hsv.empty = false := (Mat.empty_eq_false_iff hsv).mpr ⟨by omega, by omega⟩
  obtain ⟨M, hM, hr, hc, hch, _, hseg⟩ := segmentByColor_eq hsv cfg hne (by omega)
  refine ⟨M, hM, hr, hc, hch, ?_, hseg⟩
  intro y x hy hx
  obtain ⟨M2, hM2, _, _, _, _, hat⟩ :=
    inRange_at hsv cfg.lower_hsv cfg.upper_hsv hne (by omega) hy hx
  have hMM : M2 = M := by rw [hM] at hM2; exact (Option.some.inj hM2).symm
  rw [hMM] at hat
  rw [hat]
  obtain ⟨_, B, G, R, _, _, _, _, _, _, _, hB, hG, hR⟩ := hwf.pixel3 h3 hy hx
  have hiff := pixelInRange_point hsv h3 cfg.lower_hsv y x B G R hB hG hR
  rw [← hlo]
  by_cases hpt : y = py ∧ x = px
  · obtain ⟨rfl, rfl⟩ := hpt
    rw [hp0] at hB; rw [hp1] at hG; rw [hp2] at hR
    have eB : c0 = B := Option.some.inj hB
    have eG : c1 = G := Option.some.inj hG
    have eR : c2 = R := Option.some.inj hR
    have : pixelInRange hsv cfg.lower_hsv cfg.lower_hsv y x = true :=
      hiff.mpr ⟨by rw [h0, eB], by rw [h1, eG], by rw [h2, eR]⟩
    rw [this]; simp
  · have hno := hother y x hy hx hpt
    have : ¬ pixelInRange hsv cfg.lower_hsv cfg.lower_hsv y x = true := by
      intro hin
      obtain ⟨e0, e1, e2⟩ := hiff.mp hin
      apply hno
      rw [h0] at e0; rw [h1] at e1; rw [h2] at e2
      have e0' : B = c0 := by exact_mod_cast e0
      have e1' : G = c1 := by exact_mod_cast e1
      have e2' : R = c2 := by exact_mod_cast e2
      rw [hB, hG, hR, e0', e1', e2']
      exact ⟨rfl, rfl, rfl⟩
    simp only [this, if_false, hpt]
    rfl

/-- Witness of `segmentByColor_single_pixel` on `spotFrame`. -/
theorem segmentByColor_single_pixel_witness :
    spotFrame.WellFormed ∧ spotFrame.channels = 3 ∧
      ∃ M : Mat, inRange spotFrame spotConfig.lower_hsv spotConfig.upper_hsv = some M ∧
        M.rows = spotFrame.rows ∧ M.cols = spotFrame.cols ∧ M.channels = 1 ∧
        (∀ y x, y < spotFrame.rows → x < spotFrame.cols →
          M.at y x 0 = some (if y = 3 ∧ x = 3 then 255 else 0)) ∧
        segmentByColor spotFrame spotConfig =
          morphologyEx (morphologyEx M MorphOp.MORPH_CLOSE ellipse5) MorphOp.MORPH_OPEN
            ellipse5 :=
  ⟨by decide, by decide,
    segmentByColor_single_pixel spotFrame spotConfig 3 3 120 200 200 (by decide) (by decide)
      (by decide) (by decide) (by decide) (by decide) (by decide)
      (by
        intro y x hy hx hne
        have hy7 : y < 7 := hy
        have hx7 : x < 7 := hx
        have key : ∀ y, y < 7 → ∀ x, x < 7 → ¬(y = 3 ∧ x = 3) →
            spotFrame.at y x 0 = some 0 := by decide
        rw [key y hy7 x hx7 hne]
        intro h
        exact absurd h.1 (by decide))
      (by decide) (by decide) (by decide) (by decide)⟩

/-- C8 (as stated, refuted): a non-empty 1-channel 8-bit frame is not rejected:
`segmentByColor` thresholds its single channel against the first bound and
returns a non-empty mask. -/
theorem segmentByColor_accepts_one_channel :
    (⟨1, 1, 1, [[120]]⟩ : Mat).WellFormed ∧ (⟨1, 1, 1, [[120]]⟩ : Mat).empty = false ∧
      (⟨1, 1, 1, [[120]]⟩ : Mat).type ≠ CV_8UC3 ∧
      segmentByColor ⟨1, 1, 1, [[120]]⟩ blueConfig = ⟨1, 1, 1, [[255]]⟩ ∧
      (segmentByColor ⟨1, 1, 1, [[120]]⟩ blueConfig).empty = false := by
  refine ⟨by decide, by decide, by decide, by decide!, by decide!⟩

/-- C8 (amended): `segmentByColor` returns an empty result exactly when the
input frame is empty or has more than four channels (the inputs `inRange`
rejects); every other frame, whatever its channel count, gives a mask of its
size. -/
theorem segmentByColor_empty_iff (hsv : Mat) (cfg : ColorConfig) :
    ((segmentByColor hsv cfg).empty = true ↔ (hsv.empty = true ∨ 4 < hsv.channels)) ∧
      (hsv.empty = false → hsv.channels ≤ 4 →
        (segmentByColor hsv cfg).rows = hsv.rows ∧ (segmentByColor hsv cfg).cols = hsv.cols ∧
          (segmentByColor hsv cfg).channels = 1) := by
  have hshape : hsv.empty = false → hsv.channels ≤ 4 →
      (segmentByColor hsv cfg).rows = hsv.rows ∧ (segmentByColor hsv cfg).cols = hsv.cols ∧
        (segmentByColor hsv cfg).channels = 1 := by
    intro hne hch
    obtain ⟨M, _, hr, hc, hch1, _, hseg⟩ := segmentByColor_eq hsv cfg hne hch
    rw [hseg]
    obtain ⟨a1, a2, a3⟩ := morphologyEx_shape
      (morphologyEx M MorphOp.MORPH_CLOSE ellipse5) MorphOp.MORPH_OPEN ellipse5
    obtain ⟨b1, b2, b3⟩ := morphologyEx_shape M MorphOp.MORPH_CLOSE ellipse5
    exact ⟨by rw [a1, b1, hr], by rw [a2, b2, hc], by rw [a3, b3, hch1]⟩
  refine ⟨⟨?_, ?_⟩, hshape⟩
  · intro he
    by_contra hcon
    push_neg at hcon
    have hne : hsv.empty = false := by
      cases h : hsv.empty
      · rfl
      · exact absurd h hcon.1
    obtain ⟨hr, hc, _⟩ := hshape hne hcon.2
    have : (segmentByColor hsv cfg).empty = false := by
      rw [Mat.empty_eq_false_iff, hr, hc]
      exact (Mat.empty_eq_false_iff hsv).mp hne
    rw [this] at he
    exact absurd he (by decide)
  · intro h
    rw [segmentByColor_rejected hsv cfg h]
    rfl

/-! ## Claims C9 and C10: `drawResult` and `segmentRed` -/

theorem bitwiseOr_at (m1 m2 : Mat) (hs : m1.size = m2.size) (hch : m1.channels = m2.channels)
    {y x c a b : ℕ} (h1 : m1.at y x c = some a) (h2 : m2.at y x c = some b) :
    ∃ r : Mat, bitwiseOr m1 m2 = some r ∧ r.rows = m1.rows ∧ r.cols = m1.cols ∧
      r.channels = m1.channels ∧ r.at y x c = some (a ||| b) := by
  have ht : m1.type = m2.type := by unfold Mat.type; rw [hch]
  refine ⟨⟨m1.rows, m1.cols, m1.channels,
    List.zipWith (fun r1 r2 => List.zipWith (fun a b => a ||| b) r1 r2) m1.data m2.data⟩,
    ?_, rfl, rfl, rfl, ?_⟩
  · unfold bitwiseOr
    have : (m1.size != m2.size || m1.type != m2.type) = false := by simp [hs, ht]
    rw [this]; rfl
  · unfold Mat.at at h1 h2 ⊢
    rw [Option.bind_eq_some] at h1 h2
    obtain ⟨row1, hr1, ha⟩ := h1
    obtain ⟨row2, hr2, hb⟩ := h2
    simp only
    rw [List.getElem?_zipWith, hr1, hr2]
    simp only [Option.some_bind]
    rw [← hch] at hb
    rw [List.getElem?_zipWith, ha, hb]

theorem or_binary {a b : ℕ} (ha : a = 0 ∨ a = 255) (hb : b = 0 ∨ b = 255) :
    a ||| b = if a = 255 ∨ b = 255 then 255 else 0 := by
  rcases ha with rfl | rfl <;> rcases hb with rfl | rfl <;> decide

/-- C10: with the colour table of the constructor, `segmentRed` returns an empty
result for an empty frame; for a non-empty frame it returns the mask of
`colors[2]` (Red2) when the mask of `colors[1]` (Red) is empty, the mask of
`colors[1]` when only that of `colors[2]` is empty, and otherwise the pixel-wise
OR of the two masks: a pixel is 255 iff it is 255 in at least one of them, else
0.  The same holds for every outcome `segment` of the two calls of
`segmentByColor`, in particular when one call alone fails: an empty first mask
gives the second mask unchanged, a non-empty first and an empty second mask give
the first mask unchanged, two non-empty masks give their `bitwise_or`. -/
theorem segmentRed_union (hsv : Mat) :
    ColorSegmenter.new.colors[1]? = some redLowConfig ∧
      ColorSegmenter.new.colors[2]? = some redHighConfig ∧
      (hsv.empty = true → ColorSegmenter.new.segmentRed hsv = some Mat.nil) ∧
      (hsv.empty = false →
        ((segmentByColor hsv redLowConfig).empty = true →
          ColorSegmenter.new.segmentRed hsv = some (segmentByColor hsv redHighConfig)) ∧
        ((segmentByColor hsv redLowConfig).empty = false →
          (segmentByColor hsv redHighConfig).empty = true →
          ColorSegmenter.new.segmentRed hsv = some (segmentByColor hsv redLowConfig)) ∧
        ((segmentByColor hsv redLowConfig).empty = false →
          (segmentByColor hsv redHighConfig).empty = false →
          ∃ r : Mat, ColorSegmenter.new.segmentRed hsv = some r ∧ r.rows = hsv.rows ∧
            r.cols = hsv.cols ∧ r.channels = 1 ∧
            ∀ y x, y < hsv.rows → x < hsv.cols →
              ∃ a b : ℕ, (segmentByColor hsv redLowConfig).at y x 0 = some a ∧
                (segmentByColor hsv redHighConfig).at y x 0 = some b ∧
                (a = 0 ∨ a = 255) ∧ (b = 0 ∨ b = 255) ∧
                r.at y x 0 = some (if a = 255 ∨ b = 255 then 255 else 0))) ∧
      ∀ segment : Mat → ColorConfig → Mat,
        (hsv.empty = true → ColorSegmenter.new.segmentRedWith segment hsv = some Mat.nil) ∧
        (hsv.empty = false →
          ((segment hsv redLowConfig).empty = true →
            ColorSegmenter.new.segmentRedWith segment hsv =
              some (segment hsv redHighConfig)) ∧
          ((segment hsv redLowConfig).empty = false →
            (segment hsv redHighConfig).empty = true →
            ColorSegmenter.new.segmentRedWith segment hsv =
              some (segment hsv redLowConfig)) ∧
          ((segment hsv redLowConfig).empty = false →
            (segment hsv redHighConfig).empty = false →
            ColorSegmenter.new.segmentRedWith segment hsv =
              bitwiseOr (segment hsv redLowConfig) (segment hsv redHighConfig))) := by
  have hunfW : ∀ (segment : Mat → ColorConfig → Mat), hsv.empty = false →
      ColorSegmenter.new.segmentRedWith segment hsv =
      (if (segment hsv redLowConfig).empty = true then
        some (segment hsv redHighConfig)
      else if (segment hsv redHighConfig).empty = true then
        some (segment hsv redLowConfig)
      else bitwiseOr (segment hsv redLowConfig) (segment hsv redHighConfig)) := by
    intro segment h
    unfold ColorSegmenter.segmentRedWith
    rw [h]
    rfl
  have hemptyW : ∀ (segment : Mat → ColorConfig → Mat), hsv.empty = true →
      ColorSegmenter.new.segmentRedWith segment hsv = some Mat.nil := by
    intro segment he
    unfold ColorSegmenter.segmentRedWith
    rw [he]; rfl
  have hunf : ∀ h : hsv.empty = false, ColorSegmenter.new.segmentRed hsv =
      (if (segmentByColor hsv redLowConfig).empty = true then
        some (segmentByColor hsv redHighConfig)
      else if (segmentByColor hsv redHighConfig).empty = true then
        some (segmentByColor hsv redLowConfig)
      else bitwiseOr (segmentByColor hsv redLowConfig) (segmentByColor hsv redHighConfig)) :=
    fun h => hunfW segmentByColor h
  refine ⟨rfl, rfl, ?_, ?_, ?_⟩
  · intro he
    exact hemptyW segmentByColor he
  · intro hne
    refine ⟨?_, ?_, ?_⟩
    · intro h1
      rw [hunf hne, if_pos h1]
    · intro h1 h2
      rw [hunf hne, if_neg (by rw [h1]; decide), if_pos h2]
    · intro h1 h2
      rw [hunf hne, if_neg (by rw [h1]; decide), if_neg (by rw [h2]; decide)]
      have hch : hsv.channels ≤ 4 := by
        by_contra hcon
        have := segmentByColor_rejected hsv redLowConfig (Or.inr (by omega))
        rw [this] at h1
        exact absurd h1 (by decide)
      obtain ⟨hr, hc⟩ := (Mat.empty_eq_false_iff hsv).mp hne
      obtain ⟨M1, _, r1, c1, ch1, bin1, seg1⟩ := segmentByColor_eq hsv redLowConfig hne hch
      obtain ⟨M2, _, r2, c2, ch2, bin2, seg2⟩ := segmentByColor_eq hsv redHighConfig hne hch
      obtain ⟨a1, a2, a3⟩ := morphologyEx_shape M1 MorphOp.MORPH_CLOSE ellipse5
      obtain ⟨b1, b2, b3⟩ := morphologyEx_shape M2 MorphOp.MORPH_CLOSE ellipse5
      obtain ⟨d1, d2, d3⟩ := morphologyEx_shape
        (morphologyEx M1 MorphOp.MORPH_CLOSE ellipse5) MorphOp.MORPH_OPEN ellipse5
      obtain ⟨e1, e2, e3⟩ := morphologyEx_shape
        (morphologyEx M2 MorphOp.MORPH_CLOSE ellipse5) MorphOp.MORPH_OPEN ellipse5
      have s1r : (segmentByColor hsv redLowConfig).rows = hsv.rows := by
        rw [seg1, d1, a1, r1]
      have s1c : (segmentByColor hsv redLowConfig).cols = hsv.cols := by
        rw [seg1, d2, a2, c1]
      have s1h : (segmentByColor hsv redLowConfig).channels = 1 := by
        rw [seg1, d3, a3, ch1]
      have s2r : (segmentByColor hsv redHighConfig).rows = hsv.rows := by
        rw [seg2, e1, b1, r2]
      have s2c : (segmentByColor hsv redHighConfig).cols = hsv.cols := by
        rw [seg2, e2, b2, c2]
      have s2h : (segmentByColor hsv redHighConfig).channels = 1 := by
        rw [seg2, e3, b3, ch2]
      have hsize : (segmentByColor hsv redLowConfig).size =
          (segmentByColor hsv redHighConfig).size := by
        unfold Mat.size; rw [s1r, s1c, s2r, s2c]
      have hat1 : ∀ y x, y < hsv.rows → x < hsv.cols →
          ∃ a : ℕ, (segmentByColor hsv redLowConfig).at y x 0 = some a ∧ (a = 0 ∨ a = 255) := by
        intro y x hy hx
        rw [seg1]
        exact ⟨_, morphologyEx_at _ _ _ (by rw [a1, r1]; exact hy) (by rw [a2, c1]; exact hx)
          (by rw [a3, ch1]; exact Nat.one_pos),
          morphologyEx_binary _ (morphologyEx_binary _ bin1 _ _) _ _ y x 0⟩
      have hat2 : ∀ y x, y < hsv.rows → x < hsv.cols →
          ∃ b : ℕ, (segmentByColor hsv redHighConfig).at y x 0 = some b ∧ (b = 0 ∨ b = 255) := by
        intro y x hy hx
        rw [seg2]
        exact ⟨_, morphologyEx_at _ _ _ (by rw [b1, r2]; exact hy) (by rw [b2, c2]; exact hx)
          (by rw [b3, ch2]; exact Nat.one_pos),
          morphologyEx_binary _ (morphologyEx_binary _ bin2 _ _) _ _ y x 0⟩
      obtain ⟨a0, ha0, _⟩ := hat1 0 0 hr hc
      obtain ⟨b0, hb0, _⟩ := hat2 0 0 hr hc
      obtain ⟨r, hr0, rr, rc, rch, _⟩ := bitwiseOr_at _ _ hsize (by rw [s1h, s2h]) ha0 hb0
      refine ⟨r, hr0, by rw [rr, s1r], by rw [rc, s1c], by rw [rch, s1h], ?_⟩
      intro y x hy hx
      obtain ⟨a, ha, ha2⟩ := hat1 y x hy hx
      obtain ⟨b, hb, hb2⟩ := hat2 y x hy hx
      obtain ⟨r', hr', _, _, _, hrat⟩ := bitwiseOr_at _ _ hsize (by rw [s1h, s2h]) ha hb
      have : r' = r := by rw [hr0] at hr'; exact (Option.some.inj hr').symm
      rw [this, or_binary ha2 hb2] at hrat
      exact ⟨a, b, ha, hb, ha2, hb2, hrat⟩
  · intro segment
    refine ⟨hemptyW segment, ?_⟩
    intro hne
    refine ⟨?_, ?_, ?_⟩
    · intro h1
      rw [hunfW segment hne, if_pos h1]
    · intro h1 h2
      rw [hunfW segment hne, if_neg (by rw [h1]; decide), if_pos h2]
    · intro h1 h2
      rw [hunfW segment hne, if_neg (by rw [h1]; decide), if_neg (by rw [h2]; decide)]

/-- Witness of `segmentRed_union` on a frame of one pixel of hue 5, whose masks
are 255 for Red and 0 for Red2: when the call for Red fails the mask of Red2 is
returned, when the call for Red2 fails the mask of Red is returned, and when
both succeed the result is their OR. -/
theorem segmentRed_union_witness :
    redPixel.empty = false ∧
      (failingSegment redLowConfig redPixel redLowConfig).empty = true ∧
      failingSegment redLowConfig redPixel redHighConfig = ⟨1, 1, 1, [[0]]⟩ ∧
      ColorSegmenter.new.segmentRedWith (failingSegment redLowConfig) redPixel =
        some (failingSegment redLowConfig redPixel redHighConfig) ∧
      (failingSegment redHighConfig redPixel redLowConfig).empty = false ∧
      (failingSegment redHighConfig redPixel redHighConfig).empty = true ∧
      failingSegment redHighConfig redPixel redLowConfig = ⟨1, 1, 1, [[255]]⟩ ∧
      ColorSegmenter.new.segmentRedWith (failingSegment redHighConfig) redPixel =
        some (failingSegment redHighConfig redPixel redLowConfig) ∧
      segmentByColor redPixel redLowConfig = ⟨1, 1, 1, [[255]]⟩ ∧
      segmentByColor redPixel redHighConfig = ⟨1, 1, 1, [[0]]⟩ ∧
      ColorSegmenter.new.segmentRed redPixel = some ⟨1, 1, 1, [[255]]⟩ :=
  ⟨by decide, by decide!, by decide!,
    ((segmentRed_union redPixel).2.2.2.2 (failingSegment redLowConfig)).2 (by decide) |>.1
      (by decide!),
    by decide!, by decide!, by decide!,
    ((segmentRed_union redPixel).2.2.2.2 (failingSegment redHighConfig)).2 (by decide) |>.2.1
      (by decide!) (by decide!),
    by decide!, by decide!, by decide!⟩

/-- C9 (the code at the failing input): the mask holds a region of area 100 and
one of area 600; `drawResult` labels only the large one, but the call
`drawContours(result, contours, -1, …)` made for it outlines every contour, so
the region of area 100 is drawn as well. -/
theorem drawResult_outlines_small_region :
    contourArea smallSquare = 100 ∧ contourArea bigRect = 600 ∧
      (drawResult (fun _ => some [smallSquare, bigRect]) ⟨1, 1, 3, [[0, 0, 0]]⟩
        ⟨1, 1, 1, [[255]]⟩ ⟨0, 0, 255, 0⟩).ops =
        [DrawOp.drawContours [smallSquare, bigRect] (-1) ⟨0, 0, 255, 0⟩ 2,
          DrawOp.putText "Object" (20, 10) ⟨0, 0, 255, 0⟩ 2] ∧
      smallSquare ∈ (drawResult (fun _ => some [smallSquare, bigRect]) ⟨1, 1, 3, [[0, 0, 0]]⟩
        ⟨1, 1, 1, [[255]]⟩ ⟨0, 0, 255, 0⟩).outlined ∧
      (drawResult (fun _ => some [smallSquare, bigRect]) ⟨1, 1, 3, [[0, 0, 0]]⟩
        ⟨1, 1, 1, [[255]]⟩ ⟨0, 0, 255, 0⟩).labels = [(20, 10)] := by
  refine ⟨by decide!, by decide!, by decide!, by decide!, by decide!⟩

/-! ## C11: the hue bands of `hueToColor` -/

/-- C11: for every integer hue `h`, `hueToColor` returns red iff h ≤ 10 or
h ≥ 170, orange iff 11 ≤ h ≤ 25, yellow iff 26 ≤ h ≤ 35, green iff
36 ≤ h ≤ 85, cyan iff 86 ≤ h ≤ 100, blue iff 101 ≤ h ≤ 140 and violet iff
141 ≤ h ≤ 169; the seven names are distinct and one of them is returned for
every `h`. -/
theorem hueToColor_bands (h : ℤ) :
    (hueToColor h = "Красный" ↔ (h ≤ 10 ∨ h ≥ 170)) ∧
      (hueToColor h = "Оранжевый" ↔ (11 ≤ h ∧ h ≤ 25)) ∧
      (hueToColor h = "Жёлтый" ↔ (26 ≤ h ∧ h ≤ 35)) ∧
      (hueToColor h = "Зелёный" ↔ (36 ≤ h ∧ h ≤ 85)) ∧
      (hueToColor h = "Голубой" ↔ (86 ≤ h ∧ h ≤ 100)) ∧
      (hueToColor h = "Синий" ↔ (101 ≤ h ∧ h ≤ 140)) ∧
      (hueToColor h = "Фиолетовый" ↔ (141 ≤ h ∧ h ≤ 169)) ∧
      hueToColor h ∈ ["Красный", "Оранжевый", "Жёлтый", "Зелёный", "Голубой", "Синий",
        "Фиолетовый"] ∧
      ["Красный", "Оранжевый", "Жёлтый", "Зелёный", "Голубой", "Синий",
        "Фиолетовый"].Nodup := by
  unfold hueToColor
  refine ⟨?_, ?_, ?_, ?_, ?_, ?_, ?_, ?_, by decide⟩ <;> split_ifs <;>
    simp <;> omega

/-! ## C12: the coverage statistic -/

theorem filter_length_eq_sum (l : List ℕ) :
    (l.filter (fun v => v != 0)).length =
      Finset.sum (Finset.range l.length) (fun i => if l.getD i 0 ≠ 0 then 1 else 0) := by
  induction l with
  | nil => simp
  | cons a l ih =>
    rw [List.length_cons, Finset.sum_range_succ']
    simp only [List.getD_cons_succ, List.getD_cons_zero]
    rw [← ih]
    by_cases ha : a = 0
    · simp [List.filter_cons, ha]
    · simp [List.filter_cons, ha]

theorem map_sum_eq_sum_range (l : List (List ℕ)) (f : List ℕ → ℕ) :
    (l.map f).sum = Finset.sum (Finset.range l.length) (fun y => f (l.getD y [])) := by
  induction l with
  | nil => simp
  | cons a l ih =>
    rw [List.length_cons, Finset.sum_range_succ']
    simp only [List.getD_cons_succ, List.getD_cons_zero, List.map_cons, List.sum_cons]
    rw [← ih]
    omega

/-- The number of non-zero samples counted over the storage of a valid
single-channel matrix is the number of its non-zero pixels. -/
theorem countSum_eq_nonZeroPixels (m : Mat) (hwf : m.WellFormed) (h1 : m.channels = 1) :
    (m.data.map (fun row => (row.filter (fun v => v != 0)).length)).sum = nonZeroPixels m := by
  rw [map_sum_eq_sum_range, hwf.2.1]
  unfold nonZeroPixels
  apply Finset.sum_congr rfl
  intro y hy
  have hy2 : y < m.rows := Finset.mem_range.mp hy
  rw [filter_length_eq_sum, (hwf.getD_row hy2).2.1, h1, Nat.mul_one]
  apply Finset.sum_congr rfl
  intro x _
  unfold Mat.sample
  rw [hwf.sample_eq hy2 x 0, h1, Nat.mul_one, Nat.add_zero]

theorem nonZeroPixels_le (m : Mat) : nonZeroPixels m ≤ m.rows * m.cols := by
  unfold nonZeroPixels
  calc Finset.sum (Finset.range m.rows) (fun y =>
        Finset.sum (Finset.range m.cols) (fun x => if m.sample y x 0 ≠ 0 then 1 else 0))
      ≤ Finset.sum (Finset.range m.rows) (fun _ => m.cols) := by
        apply Finset.sum_le_sum
        intro y _
        calc Finset.sum (Finset.range m.cols) (fun x => if m.sample y x 0 ≠ 0 then 1 else 0)
            ≤ Finset.sum (Finset.range m.cols) (fun _ => 1) := by
              apply Finset.sum_le_sum
              intro x _
              split_ifs <;> omega
          _ = m.cols := by simp
    _ = m.rows * m.cols := by simp

theorem nonZeroPixels_all (m : Mat)
    (h : ∀ y, y < m.rows → ∀ x, x < m.cols → m.at y x 0 = some 255) :
    nonZeroPixels m = m.rows * m.cols := by
  unfold nonZeroPixels
  have e : ∀ y ∈ Finset.range m.rows,
      Finset.sum (Finset.range m.cols) (fun x => if m.sample y x 0 ≠ 0 then 1 else 0) =
        m.cols := by
    intro y hy
    have e2 : ∀ x ∈ Finset.range m.cols, (if m.sample y x 0 ≠ 0 then 1 else 0) = 1 := by
      intro x hx
      unfold Mat.sample
      rw [h y (Finset.mem_range.mp hy) x (Finset.mem_range.mp hx)]
      rfl
    rw [Finset.sum_congr rfl e2]
    simp
  rw [Finset.sum_congr rfl e]
  simp

theorem nonZeroPixels_none (m : Mat)
    (h : ∀ y, y < m.rows → ∀ x, x < m.cols → m.at y x 0 = some 0) :
    nonZeroPixels m = 0 := by
  unfold nonZeroPixels
  apply Finset.sum_eq_zero
  intro y hy
  apply Finset.sum_eq_zero
  intro x hx
  unfold Mat.sample
  rw [h y (Finset.mem_range.mp hy) x (Finset.mem_range.mp hx)]
  rfl

/-- The value of `coverage` on a valid single-channel mask of the size of the
frame, for frames of at least one and fewer than 2^31 pixels. -/
theorem coverage_eq (frame mask : Mat) (hwf : mask.WellFormed) (h1 : mask.channels = 1)
    (hr : mask.rows = frame.rows) (hc : mask.cols = frame.cols)
    (hW : 1 ≤ frame.cols) (hH : 1 ≤ frame.rows)
    (hsz : frame.rows * frame.cols < 2 ^ 31) :
    coverage frame mask =
      some (fl64 (100 * (nonZeroPixels mask : ℚ) / ((frame.cols * frame.rows : ℕ) : ℚ))) := by
  have hle := nonZeroPixels_le mask
  rw [hr, hc] at hle
  have hn : nonZeroPixels mask < 2 ^ 31 := lt_of_le_of_lt hle hsz
  have ht : frame.total ≠ 0 := by
    unfold Mat.total
    exact Nat.mul_ne_zero (by omega) (by omega)
  unfold coverage countNonZero
  rw [if_pos h1]
  simp only
  rw [countSum_eq_nonZeroPixels mask hwf h1, if_pos hn, Option.some_bind, if_neg ht]
  have e1 : fl64 (100 * (nonZeroPixels mask : ℚ)) = 100 * (nonZeroPixels mask : ℚ) := by
    have := roundSig_natCast 53 (100 * nonZeroPixels mask) (by omega)
    unfold fl64
    push_cast at this
    exact this
  have e2 : fl64 ((frame.total : ℕ) : ℚ) = ((frame.cols * frame.rows : ℕ) : ℚ) := by
    unfold fl64 Mat.total
    rw [roundSig_natCast 53 (frame.rows * frame.cols) (by omega), Nat.mul_comm]
  rw [e1, e2]

theorem fl64_hundred : fl64 100 = 100 := by
  have := roundSig_natCast 53 100 (by norm_num)
  unfold fl64
  exact_mod_cast this

theorem fl64_zero : fl64 0 = 0 := roundSig_zero 53

/-- C12: for every frame of W × H pixels with W, H ≥ 1 (fewer than 2^31 pixels,
the range of the `int` count) and every valid single-channel mask of the same
dimensions, the coverage statistic is the `double` nearest to
100 * (number of non-zero mask pixels) / (W * H), within a relative error of
2^-53 of that quotient; it is exactly 100 for a mask that is 255 everywhere and
exactly 0 for a mask that is 0 everywhere. -/
theorem coverage_percentage (frame mask : Mat) (hwf : mask.WellFormed)
    (h1 : mask.channels = 1) (hr : mask.rows = frame.rows) (hc : mask.cols = frame.cols)
    (hW : 1 ≤ frame.cols) (hH : 1 ≤ frame.rows) (hsz : frame.rows * frame.cols < 2 ^ 31) :
    coverage frame mask =
        some (fl64 (100 * (nonZeroPixels mask : ℚ) / ((frame.cols * frame.rows : ℕ) : ℚ))) ∧
      |fl64 (100 * (nonZeroPixels mask : ℚ) / ((frame.cols * frame.rows : ℕ) : ℚ)) -
          100 * (nonZeroPixels mask : ℚ) / ((frame.cols * frame.rows : ℕ) : ℚ)| ≤
        100 * (nonZeroPixels mask : ℚ) / ((frame.cols * frame.rows : ℕ) : ℚ) * (1 / 2 ^ 53) ∧
      ((∀ y, y < mask.rows → ∀ x, x < mask.cols → mask.at y x 0 = some 255) →
        coverage frame mask = some 100) ∧
      ((∀ y, y < mask.rows → ∀ x, x < mask.cols → mask.at y x 0 = some 0) →
        coverage frame mask = some 0) := by
  have heq := coverage_eq frame mask hwf h1 hr hc hW hH hsz
  have hpos : (0 : ℚ) < ((frame.cols * frame.rows : ℕ) : ℚ) := by
    have : 0 < frame.cols * frame.rows := Nat.mul_pos hW hH
    exact_mod_cast this
  refine ⟨heq, ?_, ?_, ?_⟩
  · have hb := roundSig_abs_sub_le 53
      (100 * (nonZeroPixels mask : ℚ) / ((frame.cols * frame.rows : ℕ) : ℚ))
    have hnn : (0 : ℚ) ≤ 100 * (nonZeroPixels mask : ℚ) / ((frame.cols * frame.rows : ℕ) : ℚ) := by
      positivity
    rw [abs_of_nonneg hnn] at hb
    have e : (2 : ℚ) ^ (-((53 : ℕ) : ℤ)) = 1 / 2 ^ 53 := by norm_num
    rw [e] at hb
    exact hb
  · intro hall
    rw [heq, nonZeroPixels_all mask hall, hr, hc, Nat.mul_comm frame.rows frame.cols]
    have e : 100 * ((frame.cols * frame.rows : ℕ) : ℚ) / ((frame.cols * frame.rows : ℕ) : ℚ) =
        100 := by
      field_simp
    rw [e, fl64_hundred]
  · intro hzero
    rw [heq, nonZeroPixels_none mask hzero]
    simp only [Nat.cast_zero, mul_zero, zero_div, fl64_zero]

/-- Witness of `coverage_percentage` on 2×2 frames: a mask that is 255 everywhere
covers 100 percent, a mask with two non-zero pixels out of four covers the
`double` nearest to 100 * 2 / 4. -/
theorem coverage_percentage_witness :
    (⟨2, 2, 1, [[255, 255], [255, 255]]⟩ : Mat).WellFormed ∧
      (∀ y, y < 2 → ∀ x, x < 2 →
        (⟨2, 2, 1, [[255, 255], [255, 255]]⟩ : Mat).at y x 0 = some 255) ∧
      coverage ⟨2, 2, 3, [[1, 2, 3, 4, 5, 6], [7, 8, 9, 10, 11, 12]]⟩
        ⟨2, 2, 1, [[255, 255], [255, 255]]⟩ = some 100 ∧
      (⟨2, 2, 1, [[255, 0], [0, 255]]⟩ : Mat).WellFormed ∧
      nonZeroPixels ⟨2, 2, 1, [[255, 0], [0, 255]]⟩ = 2 ∧
      coverage ⟨2, 2, 3, [[1, 2, 3, 4, 5, 6], [7, 8, 9, 10, 11, 12]]⟩
        ⟨2, 2, 1, [[255, 0], [0, 255]]⟩ =
        some (fl64 (100 * (nonZeroPixels ⟨2, 2, 1, [[255, 0], [0, 255]]⟩ : ℚ) /
          ((2 * 2 : ℕ) : ℚ))) :=
  ⟨by decide, by decide,
    (coverage_percentage ⟨2, 2, 3, [[1, 2, 3, 4, 5, 6], [7, 8, 9, 10, 11, 12]]⟩
      ⟨2, 2, 1, [[255, 255], [255, 255]]⟩ (by decide) (by decide) (by decide) (by decide)
      (by decide) (by decide) (by norm_num)).2.2.1 (by decide),
    by decide, by decide,
    (coverage_percentage ⟨2, 2, 3, [[1, 2, 3, 4, 5, 6], [7, 8, 9, 10, 11, 12]]⟩
      ⟨2, 2, 1, [[255, 0], [0, 255]]⟩ (by decide) (by decide) (by decide) (by decide)
      (by decide) (by decide) (by norm_num)).1⟩

/-! ## C13: gray frames in `manualBGR2HSV` -/

theorem fl32_zero : fl32 0 = 0 := roundSig_zero 24

theorem roundNearestEven_pos {m : ℚ} (hm : 1 ≤ m) : 0 < roundNearestEven m := by
  have h0 : 0 < ⌊m⌋ := Int.floor_pos.mpr hm
  unfold roundNearestEven
  simp only
  split_ifs <;> omega

/-- Rounding to at least one significant bit keeps a positive number positive. -/
theorem roundSig_pos (p : ℕ) (hp : 1 ≤ p) {q : ℚ} (hq : 0 < q) : 0 < roundSig p q := by
  unfold roundSig
  rw [if_neg (ne_of_gt hq)]
  simp only
  rw [abs_of_pos hq]
  have hu : (0 : ℚ) < (2 : ℚ) ^ (Int.log 2 q - ((p : ℤ) - 1)) := by positivity
  have hlow : (2 : ℚ) ^ (Int.log 2 q) ≤ q := by
    have := Int.zpow_log_le_self (R := ℚ) (b := 2) (by norm_num) hq
    simpa using this
  have hle : (2 : ℚ) ^ (Int.log 2 q - ((p : ℤ) - 1)) ≤ (2 : ℚ) ^ (Int.log 2 q) := by
    apply zpow_le_zpow_right₀ (by norm_num)
    have : (1 : ℤ) ≤ (p : ℤ) := by exact_mod_cast hp
    omega
  have hm : 1 ≤ q / (2 : ℚ) ^ (Int.log 2 q - ((p : ℤ) - 1)) := by
    rw [one_le_div hu]
    exact le_trans hle hlow
  have hr := roundNearestEven_pos hm
  have hr2 : (0 : ℚ) < (roundNearestEven (q / (2 : ℚ) ^ (Int.log 2 q - ((p : ℤ) - 1))) : ℚ) := by
    exact_mod_cast hr
  exact mul_pos hr2 hu

theorem c0001_pos : 0 < c0001 := roundSig_pos 24 (by norm_num) (by norm_num)

theorem castUchar_zero : castUchar 0 = some 0 := by decide!

/-- On equal channels the hue computation takes the guarded branch and gives 0. -/
theorem hueFloat_gray (t : ℚ) : hueFloat t t t = 0 := by
  unfold hueFloat
  simp only [max_self, min_self, sub_self, fl32_zero]
  rw [if_neg (not_lt.mpr c0001_pos.le)]
  simp only [zero_div, fl32_zero]
  norm_num

/-- On equal channels the saturation is 0. -/
theorem satFloat_gray (t : ℚ) : satFloat t t t = 0 := by
  unfold satFloat
  simp only [max_self, min_self, sub_self, fl32_zero, zero_div, zero_mul]
  split_ifs <;> first | rfl | linarith

theorem checkedDiv_of_pos (x : ℚ) {y : ℚ} (hy : y > c0001) :
    checkedDiv x y = some (fl32 (x / y)) := by
  unfold checkedDiv
  rw [if_neg (ne_of_gt (lt_trans c0001_pos hy))]

/-- The guards of the hue computation keep every divisor away from zero: the
checked computation never fails and agrees with `hueFloat`. -/
theorem hueChecked_eq (b g r : ℚ) : hueChecked b g r = some (hueFloat b g r) := by
  unfold hueChecked hueFloat
  by_cases hd : fl32 (max r (max g b) - min r (min g b)) > c0001
  · by_cases h1 : max r (max g b) = r
    · simp only [if_pos hd, if_pos h1, checkedDiv_of_pos _ hd, Option.map_some']
    · by_cases h2 : max r (max g b) = g
      · simp only [if_pos hd, if_neg h1, if_pos h2, checkedDiv_of_pos _ hd, Option.map_some']
      · simp only [if_pos hd, if_neg h1, if_neg h2, checkedDiv_of_pos _ hd, Option.map_some']
  · simp only [if_neg hd, Option.map_some']

/-- The guard of the saturation computation keeps the divisor away from zero:
the checked computation never fails and agrees with `satFloat`. -/
theorem satChecked_eq (b g r : ℚ) : satChecked b g r = some (satFloat b g r) := by
  unfold satChecked satFloat
  by_cases hm : max r (max g b) > c0001
  · simp only [if_pos hm, checkedDiv_of_pos _ hm, Option.map_some']
  · simp only [if_neg hm, Option.map_some']

/-- The samples stored for a pixel with B = G = R: hue 0 and saturation 0. -/
theorem hsvPixel_gray (v : ℕ) : ∃ w : ℕ, hsvPixel v v v = some (0, 0, w) ∧ w ≤ 255 := by
  have hr : 0 ≤ fl32 ((v : ℚ) / 255) := roundSig_nonneg 24 (by positivity)
  obtain ⟨w, hw, hw2⟩ := castUchar_of_le (valFloat_range (b := fl32 ((v : ℚ) / 255))
    (g := fl32 ((v : ℚ) / 255)) hr).1 (valFloat_range hr).2 (by norm_num)
  refine ⟨w, ?_, hw2⟩
  unfold hsvPixel
  simp only [hueFloat_gray, satFloat_gray, castUchar_zero, Option.some_bind, hw,
    Option.map_some']

/-- C13: for every non-empty 3-channel 8-bit frame whose pixels all have
B = G = R, `manualBGR2HSV` returns a frame that stores hue 0 and saturation 0 at
every pixel, and on the normalised channel value `t` of each pixel the hue and
saturation computations with their divisions checked succeed (no division by a
zero `delta` or a zero `max_val` is performed) and give 0. -/
theorem manualBGR2HSV_gray (bgr : Mat) (hwf : bgr.WellFormed) (hne : bgr.empty = false)
    (h3 : bgr.channels = 3)
    (hgray : ∀ y, y < bgr.rows → ∀ x, x < bgr.cols →
      bgr.at y x 0 = bgr.at y x 1 ∧ bgr.at y x 1 = bgr.at y x 2) :
    ∃ hsv : Mat, manualBGR2HSV bgr = some hsv ∧
      ∀ y x, y < bgr.rows → x < bgr.cols →
        ∃ v : ℕ, bgr.at y x 0 = some v ∧ v ≤ 255 ∧
          hsv.at y x 0 = some 0 ∧ hsv.at y x 1 = some 0 ∧
          hueChecked (fl32 ((v : ℚ) / 255)) (fl32 ((v : ℚ) / 255)) (fl32 ((v : ℚ) / 255)) =
            some 0 ∧
          satChecked (fl32 ((v : ℚ) / 255)) (fl32 ((v : ℚ) / 255)) (fl32 ((v : ℚ) / 255)) =
            some 0 := by
  obtain ⟨hsv, hrun, _, _, _, _, _, hpix⟩ := manualBGR2HSV_pixels bgr hwf hne h3
  refine ⟨hsv, hrun, ?_⟩
  intro y x hy hx
  obtain ⟨B, G, R, h, s, v, hB, hG, hR, hB2, _, _, hp, hh, hs, _⟩ := hpix y x hy hx
  obtain ⟨e1, e2⟩ := hgray y hy x hx
  have hBG : B = G := by
    rw [hB, hG] at e1
    exact Option.some.inj e1
  have hGR : G = R := by
    rw [hG, hR] at e2
    exact Option.some.inj e2
  subst hBG
  subst hGR
  obtain ⟨w, hw, _⟩ := hsvPixel_gray B
  have hpw : (h, s, v) = (0, 0, w) := Option.some.inj (hp.symm.trans hw)
  have h0 : h = 0 := congrArg Prod.fst hpw
  have s0 : s = 0 := congrArg (fun p => p.2.1) hpw
  subst h0
  subst s0
  refine ⟨B, hB, hB2, hh, hs, ?_, ?_⟩
  · rw [hueChecked_eq, hueFloat_gray]
  · rw [satChecked_eq, satFloat_gray]

/-- Witness of `manualBGR2HSV_gray` on a 1×2 frame with a black and a mid-gray
pixel. -/
theorem manualBGR2HSV_gray_witness :
    (⟨1, 2, 3, [[0, 0, 0, 128, 128, 128]]⟩ : Mat).WellFormed ∧
      (⟨1, 2, 3, [[0, 0, 0, 128, 128, 128]]⟩ : Mat).empty = false ∧
      (⟨1, 2, 3, [[0, 0, 0, 128, 128, 128]]⟩ : Mat).channels = 3 ∧
      (∀ y, y < 1 → ∀ x, x < 2 →
        (⟨1, 2, 3, [[0, 0, 0, 128, 128, 128]]⟩ : Mat).at y x 0 =
            (⟨1, 2, 3, [[0, 0, 0, 128, 128, 128]]⟩ : Mat).at y x 1 ∧
          (⟨1, 2, 3, [[0, 0, 0, 128, 128, 128]]⟩ : Mat).at y x 1 =
            (⟨1, 2, 3, [[0, 0, 0, 128, 128, 128]]⟩ : Mat).at y x 2) ∧
      ∃ hsv : Mat, manualBGR2HSV ⟨1, 2, 3, [[0, 0, 0, 128, 128, 128]]⟩ = some hsv ∧
        ∀ y x, y < 1 → x < 2 →
          ∃ v : ℕ, (⟨1, 2, 3, [[0, 0, 0, 128, 128, 128]]⟩ : Mat).at y x 0 = some v ∧ v ≤ 255 ∧
            hsv.at y x 0 = some 0 ∧ hsv.at y x 1 = some 0 ∧
            hueChecked (fl32 ((v : ℚ) / 255)) (fl32 ((v : ℚ) / 255)) (fl32 ((v : ℚ) / 255)) =
              some 0 ∧
            satChecked (fl32 ((v : ℚ) / 255)) (fl32 ((v : ℚ) / 255)) (fl32 ((v : ℚ) / 255)) =
              some 0 :=
  ⟨by decide, by decide, by decide, by decide,
    manualBGR2HSV_gray ⟨1, 2, 3, [[0, 0, 0, 128, 128, 128]]⟩ (by decide) (by decide)
      (by decide) (by decide)⟩

end Webcam
